import Mathlib

/-!
Verification development for the amphipod-burrow best-first search solver
(`src/day23/main.rs`).  The Rust data model is embedded shallowly:

* `Amphipod`, `Location` mirror the Rust enums (integer fields become `Int`);
* `Burrow.amphipods` models the `HashMap<Location, Amphipod>` as an
  association list kept in a canonical order (sorted by key), which realises
  the map's order-independent equality and hashing;
* `Burrow.movements`, `Burrow.possibilities`, `Burrow.min_cost`,
  `Burrow.snug` follow the Rust functions line by line;
* the `BinaryHeap` frontier is modelled as a list from which `heapPop`
  extracts a maximal element for the `Possibility` ordering, and
  `Solver.step` / `solveFuel` mirror `Solver::step` / `Solver::solve`
  (with explicit fuel standing in for the unbounded `while` loop).
-/

inductive Amphipod where
  | A
  | B
  | C
  | D
deriving DecidableEq, Repr

def Amphipod.energy : Amphipod → Int
  | .A => 1
  | .B => 10
  | .C => 100
  | .D => 1000

/-- Mirrors `Burrow::room_no` (also inlined in `movements`). -/
def Amphipod.roomNo : Amphipod → Int
  | .A => 1
  | .B => 2
  | .C => 3
  | .D => 4

inductive Location where
  | room (r : Int) (d : Int)
  | hallway (h : Int)
deriving DecidableEq, Repr

/-- Mirrors `Location::to_hallway`: corridor anchor and depth-from-corridor. -/
def Location.toHallway : Location → Int × Int
  | .room r d => (2 * r + 1, d)
  | .hallway h => (h, 0)

/-- Absolute value as used by `i16::abs`. -/
def iabs (x : Int) : Int := if x < 0 then -x else x

/-- Mirrors `Location::distance`. -/
def Location.distance (a b : Location) : Int :=
  iabs (a.toHallway.1 - b.toHallway.1) + a.toHallway.2 + b.toHallway.2

/-- Integer range `[a, b)` ascending, as Rust `a..b`. -/
def intRangeTo (a b : Int) : List Int :=
  (List.range (b - a).toNat).map (fun (i : Nat) => a + (i : Int))

/-- Integer range `[a, b]` ascending, as Rust `a..=b`. -/
def intRangeIncl (a b : Int) : List Int := intRangeTo a (b + 1)

structure Burrow where
  amphipods : List (Location × Amphipod)
  room_depth : Int
deriving DecidableEq, Repr

/-- Mirrors `HashMap::get` on the canonical association list. -/
def Burrow.get (b : Burrow) (loc : Location) : Option Amphipod :=
  (b.amphipods.find? (fun e => decide (e.1 = loc))).map (fun e => e.2)

/-- Mirrors `Burrow::snug`. -/
def Burrow.snug (b : Burrow) (loc : Location) : Bool :=
  match loc with
  | .hallway _ => false
  | .room r d =>
    match b.get (.room r d) with
    | none => false
    | some amph =>
      if r ≠ amph.roomNo then false
      else
        (intRangeIncl (d + 1) b.room_depth).all
          (fun depth => decide (b.get (.room r depth) = some amph))

/-- Forbidden hallway stopping positions (`FORBIDDEN` in `movements`). -/
def FORBIDDEN : List Int := [3, 5, 7, 9]

/-- Room-exit blocking test: the first loop of `Burrow::movements`. -/
def blockedIn (b : Burrow) (loc : Location) : Bool :=
  match loc with
  | .room n d => (intRangeTo 1 d).any (fun dabove => (b.get (.room n dabove)).isSome)
  | .hallway _ => false

/-- Loop body of the destination-spot search in `Burrow::movements`
(`for depth in (1..=self.room_depth).rev()`), over the explicit list of depths. -/
def spotGo (b : Burrow) (amph : Amphipod) (rn : Int) : List Int → Option Location
  | [] => none
  | depth :: rest =>
    match b.get (.room rn depth) with
    | none => some (.room rn depth)
    | some other => if other = amph then spotGo b amph rn rest else none

/-- The destination-spot search of `Burrow::movements`. -/
def findSpot (b : Burrow) (amph : Amphipod) : Option Location :=
  spotGo b amph amph.roomNo (intRangeIncl 1 b.room_depth).reverse

/-- One directional hallway walk of `Burrow::movements`: skip forbidden cells,
stop at the first occupied cell, record the rest. -/
def walkGo (b : Burrow) (distOf : Int → Int) : List Int → List (Int × Location)
  | [] => []
  | h :: rest =>
    if h ∈ FORBIDDEN then walkGo b distOf rest
    else if (b.get (.hallway h)).isSome then []
    else (distOf h, Location.hallway h) :: walkGo b distOf rest

/-- The two hallway walks of `Burrow::movements` (right then left); a hallway
source returns early and contributes none. -/
def hallwayMoves (b : Burrow) (loc : Location) : List (Int × Location) :=
  match loc with
  | .hallway _ => []
  | .room _ _ =>
    walkGo b (fun h => loc.toHallway.2 + (h - loc.toHallway.1))
        (intRangeIncl (loc.toHallway.1 + 1) 11) ++
      walkGo b (fun h => loc.toHallway.2 + (loc.toHallway.1 - h))
        (intRangeIncl 1 (loc.toHallway.1 - 1)).reverse

/-- Corridor-traversal check of `Burrow::movements`: the range strictly between
the two anchors (`h1+1..h2` or `h2+1..h1`) must be unoccupied. -/
def betweenClear (b : Burrow) (h1 h2 : Int) : Bool :=
  (if h1 < h2 then intRangeTo (h1 + 1) h2 else intRangeTo (h2 + 1) h1).all
    (fun h => (b.get (.hallway h)).isNone)

/-- Mirrors `Burrow::movements`. -/
def Burrow.movements (b : Burrow) (loc : Location) (amph : Amphipod) :
    List (Int × Location) :=
  if blockedIn b loc then []
  else
    match findSpot b amph with
    | some spot =>
      if loc.toHallway.1 = spot.toHallway.1 then
        if loc.toHallway.2 = 2 ∨
            (loc.toHallway.2 = 1 ∧ b.get (.room amph.roomNo 2) = some amph) then []
        else hallwayMoves b loc
      else
        if betweenClear b loc.toHallway.1 spot.toHallway.1 then
          (loc.toHallway.2 + iabs (loc.toHallway.1 - spot.toHallway.1) + spot.toHallway.2,
              spot) :: hallwayMoves b loc
        else hallwayMoves b loc
    | none => hallwayMoves b loc

/-- Integer comparison, as `Ord::cmp` on Rust integers. -/
def intCmp (x y : Int) : Ordering :=
  if x < y then .lt else if x = y then .eq else .gt

/-- Comparison matching the Rust `derive(Ord)` on `Location`
(`Room` variant before `Hallway`, fields lexicographic). -/
def locCmp : Location → Location → Ordering
  | .room r1 d1, .room r2 d2 => (intCmp r1 r2).then (intCmp d1 d2)
  | .room _ _, .hallway _ => .lt
  | .hallway _, .room _ _ => .gt
  | .hallway h1, .hallway h2 => intCmp h1 h2

def Amphipod.idx : Amphipod → Int
  | .A => 0
  | .B => 1
  | .C => 2
  | .D => 3

/-- Comparison matching the Rust `derive(Ord)` on `(Location, Amphipod)` pairs. -/
def pairCmp (a b : Location × Amphipod) : Ordering :=
  (locCmp a.1 b.1).then (intCmp a.2.idx b.2.idx)

/-- Mirrors `HashMap::remove` on the canonical association list. -/
def eraseKey (loc : Location) : List (Location × Amphipod) → List (Location × Amphipod)
  | [] => []
  | e :: rest => if e.1 = loc then rest else e :: eraseKey loc rest

/-- Mirrors `HashMap::insert` on the canonical association list, keeping order. -/
def insertKey (loc : Location) (amph : Amphipod) :
    List (Location × Amphipod) → List (Location × Amphipod)
  | [] => [(loc, amph)]
  | e :: rest =>
    match locCmp loc e.1 with
    | .lt => (loc, amph) :: e :: rest
    | .eq => (loc, amph) :: rest
    | .gt => e :: insertKey loc amph rest

/-- Mirrors `Burrow::possibilities`: relocate one amphipod per generated move. -/
def Burrow.possibilities (b : Burrow) : List (Amphipod × Int × Burrow) :=
  b.amphipods.flatMap (fun e =>
    (b.movements e.1 e.2).map (fun m =>
      (e.2, m.1,
        { b with amphipods := insertKey m.2 e.2 (eraseKey e.1 b.amphipods) })))

/-- Mirrors `Burrow::min_cost`. -/
def Burrow.minCost (b : Burrow) : Int :=
  b.amphipods.foldl
    (fun cost e =>
      if b.snug e.1 then cost
      else cost + Location.distance e.1 (.room e.2.roomNo 1) * e.2.energy) 0

structure Possibility where
  energy : Int
  expected_cost : Int
  burrow : Burrow
deriving DecidableEq, Repr

/-- Insertion step of the `sort` call in `Possibility::cmp`. -/
def sortInsert (a : Location × Amphipod) :
    List (Location × Amphipod) → List (Location × Amphipod)
  | [] => [a]
  | b :: rest => if pairCmp a b = .gt then b :: sortInsert a rest else a :: b :: rest

/-- The sorted key-value list used for tie-breaking in `Possibility::cmp`. -/
def sortPairs (l : List (Location × Amphipod)) : List (Location × Amphipod) :=
  l.foldr sortInsert []

/-- Lexicographic slice comparison, as Rust `Vec::cmp`. -/
def listCmpGo : List (Location × Amphipod) → List (Location × Amphipod) → Ordering
  | [], [] => .eq
  | [], _ :: _ => .lt
  | _ :: _, [] => .gt
  | a :: xs, b :: ys => (pairCmp a b).then (listCmpGo xs ys)

/-- Mirrors `Possibility::cmp` (the `Ord` used by the `BinaryHeap` frontier). -/
def Possibility.cmp (p q : Possibility) : Ordering :=
  let c := intCmp p.expected_cost q.expected_cost
  if c ≠ .eq then c.swap
  else
    let c2 := intCmp p.energy q.energy
    if c2 ≠ .eq then c2
    else listCmpGo (sortPairs p.burrow.amphipods) (sortPairs q.burrow.amphipods)

/-- Mirrors `Possibility::complete`. -/
def Possibility.complete (p : Possibility) : Bool := p.energy == p.expected_cost

/-- Extraction of a maximal element, modelling `BinaryHeap::pop`. -/
def heapPop : List Possibility → Option (Possibility × List Possibility)
  | [] => none
  | p :: rest =>
    match heapPop rest with
    | none => some (p, [])
    | some qr =>
      if Possibility.cmp p qr.1 = .lt then some (qr.1, p :: qr.2) else some (p, rest)

structure SolverSt where
  queue : List Possibility
  seen : List Burrow
deriving Repr

/-- Mirrors `Solver::new`. -/
def Solver.new (b : Burrow) : SolverSt :=
  { queue := [{ energy := 0, expected_cost := b.minCost, burrow := b }], seen := [b] }

/-- A `Possibility` as pushed by `Solver::step` for a generated successor
`(amph, dist, burrow)`: `energy = current.energy + dist * amph.energy` and
`expected_cost = energy + burrow.min_cost()`. -/
def mkPoss (cur : Possibility) (t : Amphipod × Int × Burrow) : Possibility :=
  { energy := cur.energy + t.2.1 * t.1.energy,
    expected_cost := cur.energy + t.2.1 * t.1.energy + t.2.2.minCost,
    burrow := t.2.2 }

/-- The expansion loop inside `Solver::step` (`for (amph, dist, burrow) in
possibilities`), threading the queue and the seen set. -/
def expandLoop (cur : Possibility) :
    List (Amphipod × Int × Burrow) → List Possibility → List Burrow →
      List Possibility × List Burrow
  | [], q, seen => (q, seen)
  | t :: rest, q, seen =>
    if t.2.2 ∈ seen then expandLoop cur rest q seen
    else expandLoop cur rest (mkPoss cur t :: q) (t.2.2 :: seen)

/-- Mirrors `Solver::step`. -/
def stepSim (s : SolverSt) : Bool × SolverSt :=
  match heapPop s.queue with
  | none => (false, s)
  | some (current, rest) =>
    if current.complete then (false, { s with queue := current :: rest })
    else
      let qs := expandLoop current current.burrow.possibilities rest s.seen
      (true, { queue := qs.1, seen := qs.2 })

/-- Mirrors `Solver::solve` (`while self.step() {}` then peek), with fuel for
the loop; `none` means the fuel ran out before the loop finished. -/
def solveFuel : Nat → SolverSt → Option (Option Int)
  | 0, _ => none
  | fuel + 1, s =>
    match stepSim s with
    | (true, s1) => solveFuel fuel s1
    | (false, s1) => some ((heapPop s1.queue).map (fun t => t.1.energy))

def cexC1 : Burrow :=
  { amphipods :=
      [(.room 1 2, .D), (.room 2 2, .B), (.room 3 1, .D), (.room 3 2, .B),
       (.room 4 2, .C), (.hallway 6, .A), (.hallway 10, .C), (.hallway 11, .A)],
    room_depth := 2 }

/-- A cell identifier lying on the actual board: one of the 11 hallway slots,
or a room 1–4 at a depth within the configured room depth (spec, section 3). -/
def validLoc (rd : Int) : Location → Bool
  | .room r d => decide (1 ≤ r) && decide (r ≤ 4) && decide (1 ≤ d) && decide (d ≤ rd)
  | .hallway h => decide (1 ≤ h) && decide (h ≤ 11)

/-- A configuration all of whose occupied cells lie on the board. -/
def ValidB (b : Burrow) : Prop :=
  ∀ e ∈ b.amphipods, validLoc b.room_depth e.1 = true

instance : DecidablePred ValidB := fun b => by
  unfold ValidB
  infer_instance

/-- A fully solved configuration: every occupied cell is snug (spec, section 3). -/
def isSolved (b : Burrow) : Bool := b.amphipods.all (fun e => b.snug e.1)

/-- Executes a single move, checking that it is one the Move Generator offers:
looks up the occupant of `loc`, requires `dest` among its generated
destinations, and charges `distance * energy` exactly as `Solver::step` does. -/
def applyMove (b : Burrow) (loc dest : Location) : Option (Int × Burrow) :=
  match b.get loc with
  | none => none
  | some amph =>
    match (b.movements loc amph).find? (fun m => decide (m.2 = dest)) with
    | none => none
    | some m =>
      some (m.1 * amph.energy,
        { b with amphipods := insertKey dest amph (eraseKey loc b.amphipods) })

/-- Replays a sequence of generated moves, accumulating the charged cost. -/
def runMoves : Burrow → Int → List (Location × Location) → Option (Int × Burrow)
  | b, c, [] => some (c, b)
  | b, c, mv :: rest =>
    match applyMove b mv.1 mv.2 with
    | none => none
    | some r => runMoves r.2 (c + r.1) rest

/-- Legal reachability: `ReachesAt init b c` holds when some sequence of moves
generated by `Burrow::possibilities` leads from `init` to `b` at total cost
`c` (each move charged `distance * energy`, as in `Solver::step`). -/
inductive ReachesAt (init : Burrow) : Burrow → Int → Prop
  | refl : ReachesAt init init 0
  | step {b e amph dist b2} : ReachesAt init b e →
      (amph, dist, b2) ∈ b.possibilities → ReachesAt init b2 (e + dist * amph.energy)

/-! ## Basic lemmas: integer comparison and ranges -/

theorem intCmp_eq_lt {x y : Int} : intCmp x y = .lt ↔ x < y := by
  unfold intCmp
  rcases lt_trichotomy x y with h | h | h
  · rw [if_pos h]
    simp [h]
  · subst h
    rw [if_neg (lt_irrefl x), if_pos rfl]
    simp
  · rw [if_neg (by omega : ¬ x < y), if_neg (by omega : x ≠ y)]
    simp
    omega

theorem intCmp_eq_eq {x y : Int} : intCmp x y = .eq ↔ x = y := by
  unfold intCmp
  rcases lt_trichotomy x y with h | h | h
  · rw [if_pos h]
    simp
    omega
  · subst h
    rw [if_neg (lt_irrefl x), if_pos rfl]
    simp
  · rw [if_neg (by omega : ¬ x < y), if_neg (by omega : x ≠ y)]
    simp
    omega

theorem intCmp_eq_gt {x y : Int} : intCmp x y = .gt ↔ y < x := by
  unfold intCmp
  rcases lt_trichotomy x y with h | h | h
  · rw [if_pos h]
    simp
    omega
  · subst h
    rw [if_neg (lt_irrefl x), if_pos rfl]
    simp
  · rw [if_neg (by omega : ¬ x < y), if_neg (by omega : x ≠ y)]
    simp [h]

theorem ordThen_eq_eq {a b : Ordering} : a.then b = .eq ↔ a = .eq ∧ b = .eq := by
  cases a <;> simp [Ordering.then]

theorem locCmp_eq_iff {a b : Location} : locCmp a b = .eq ↔ a = b := by
  cases a <;> cases b <;> simp only [locCmp]
  · rw [ordThen_eq_eq, intCmp_eq_eq, intCmp_eq_eq]
    simp [Location.room.injEq]
  · simp
  · simp
  · rw [intCmp_eq_eq]
    simp [Location.hallway.injEq]

theorem mem_intRangeTo {a b x : Int} : x ∈ intRangeTo a b ↔ a ≤ x ∧ x < b := by
  unfold intRangeTo
  simp only [List.mem_map, List.mem_range]
  constructor
  · rintro ⟨i, hi, rfl⟩
    omega
  · rintro ⟨h1, h2⟩
    exact ⟨(x - a).toNat, by omega, by omega⟩

theorem mem_intRangeIncl {a b x : Int} : x ∈ intRangeIncl a b ↔ a ≤ x ∧ x ≤ b := by
  unfold intRangeIncl
  rw [mem_intRangeTo]
  omega

theorem intRangeTo_pairwise (a b : Int) : (intRangeTo a b).Pairwise (· < ·) := by
  unfold intRangeTo
  rw [List.pairwise_map]
  exact (List.pairwise_lt_range _).imp (by omega)

theorem intRangeIncl_pairwise (a b : Int) : (intRangeIncl a b).Pairwise (· < ·) :=
  intRangeTo_pairwise a (b + 1)

theorem intRangeTo_cons {a b : Int} (h : a < b) :
    intRangeTo a b = a :: intRangeTo (a + 1) b := by
  unfold intRangeTo
  have hn : (b - a).toNat = (b - (a + 1)).toNat + 1 := by omega
  rw [hn, List.range_succ_eq_map]
  simp only [List.map_cons, List.map_map]
  congr 1
  · omega
  · apply List.map_congr_left
    intro i _
    simp only [Function.comp_apply]
    omega

/-! ## Basic lemmas: association-list operations -/

theorem get_eq_none_iff {b : Burrow} {loc : Location} :
    b.get loc = none ↔ ∀ e ∈ b.amphipods, e.1 ≠ loc := by
  unfold Burrow.get
  simp only [Option.map_eq_none', List.find?_eq_none, decide_eq_true_eq]

theorem get_eq_some_mem {b : Burrow} {loc : Location} {a : Amphipod}
    (h : b.get loc = some a) : (loc, a) ∈ b.amphipods := by
  unfold Burrow.get at h
  rcases Option.map_eq_some'.mp h with ⟨e, he, rfl⟩
  have h1 := List.find?_some he
  have h2 := List.mem_of_find?_eq_some he
  simp only [decide_eq_true_eq] at h1
  rwa [← h1]

theorem mem_eraseKey {loc : Location} {l : List (Location × Amphipod)}
    {e : Location × Amphipod} (h : e ∈ eraseKey loc l) : e ∈ l := by
  induction l with
  | nil => simp [eraseKey] at h
  | cons x rest ih =>
    unfold eraseKey at h
    split at h
    · exact List.mem_cons_of_mem x h
    · rcases List.mem_cons.mp h with h1 | h1
      · exact h1 ▸ List.mem_cons_self x rest
      · exact List.mem_cons_of_mem x (ih h1)

theorem mem_insertKey {loc : Location} {a : Amphipod} {l : List (Location × Amphipod)}
    {e : Location × Amphipod} (h : e ∈ insertKey loc a l) : e = (loc, a) ∨ e ∈ l := by
  induction l with
  | nil => simpa [insertKey] using h
  | cons x rest ih =>
    unfold insertKey at h
    split at h
    · rcases List.mem_cons.mp h with h1 | h1
      · exact .inl h1
      · exact .inr h1
    · rcases List.mem_cons.mp h with h1 | h1
      · exact .inl h1
      · exact .inr (List.mem_cons_of_mem x h1)
    · rcases List.mem_cons.mp h with h1 | h1
      · exact .inr (h1 ▸ List.mem_cons_self x rest)
      · rcases ih h1 with h2 | h2
        · exact .inl h2
        · exact .inr (List.mem_cons_of_mem x h2)

theorem eraseKey_length {loc : Location} {l : List (Location × Amphipod)}
    (h : ∃ e ∈ l, e.1 = loc) : (eraseKey loc l).length + 1 = l.length := by
  induction l with
  | nil => simp at h
  | cons x rest ih =>
    unfold eraseKey
    split
    · simp
    · next hne =>
      rcases h with ⟨e, he, hk⟩
      rcases List.mem_cons.mp he with rfl | h1
      · exact absurd hk hne
      · simp only [List.length_cons]
        rw [← ih ⟨e, h1, hk⟩]

theorem insertKey_length {loc : Location} {a : Amphipod} {l : List (Location × Amphipod)}
    (h : ∀ e ∈ l, e.1 ≠ loc) : (insertKey loc a l).length = l.length + 1 := by
  induction l with
  | nil => simp [insertKey]
  | cons x rest ih =>
    unfold insertKey
    have hx : x.1 ≠ loc := h x (List.mem_cons_self x rest)
    split
    · simp
    · next heq =>
      exact absurd (locCmp_eq_iff.mp heq).symm hx
    · simp only [List.length_cons]
      rw [ih (fun e he => h e (List.mem_cons_of_mem x he))]

/-! ## Membership characterization of the Move Generator -/

theorem iabs_def (x : Int) : iabs x = if x < 0 then -x else x := rfl

theorem walkGo_mem {b : Burrow} {f : Int → Int} {d : Int} {l : Location} :
    ∀ {xs : List Int}, (d, l) ∈ walkGo b f xs →
      ∃ hh l1 l2, l = .hallway hh ∧ d = f hh ∧ xs = l1 ++ hh :: l2 ∧
        hh ∉ FORBIDDEN ∧ b.get (.hallway hh) = none ∧
        ∀ x ∈ l1, x ∉ FORBIDDEN → b.get (.hallway x) = none := by
  intro xs
  induction xs with
  | nil => intro h; simp [walkGo] at h
  | cons hd rest ih =>
    intro h
    unfold walkGo at h
    split at h
    · next hforb =>
      rcases ih h with ⟨hh, l1, l2, rfl, rfl, rfl, hf, hget, hclear⟩
      refine ⟨hh, hd :: l1, l2, rfl, rfl, rfl, hf, hget, ?_⟩
      intro x hx hxf
      rcases List.mem_cons.mp hx with rfl | hx1
      · exact absurd hforb hxf
      · exact hclear x hx1 hxf
    · split at h
      · simp at h
      · next hforb hocc =>
        rcases List.mem_cons.mp h with h1 | h1
        · injection h1 with h1a h1b
          refine ⟨hd, [], rest, h1b.symm ▸ rfl, h1a, rfl, hforb, ?_, by simp⟩
          rw [← Option.not_isSome_iff_eq_none]
          exact hocc
        · rcases ih h1 with ⟨hh, l1, l2, rfl, rfl, rfl, hf, hget, hclear⟩
          refine ⟨hh, hd :: l1, l2, rfl, rfl, rfl, hf, hget, ?_⟩
          intro x hx hxf
          rcases List.mem_cons.mp hx with rfl | hx1
          · rw [← Option.not_isSome_iff_eq_none]
            exact hocc
          · exact hclear x hx1 hxf

theorem spotGo_eq_some {b : Burrow} {amph : Amphipod} {rn : Int} :
    ∀ {ds : List Int} {l : Location}, spotGo b amph rn ds = some l →
      ∃ sd l1 l2, l = .room rn sd ∧ ds = l1 ++ sd :: l2 ∧
        b.get (.room rn sd) = none ∧ ∀ x ∈ l1, b.get (.room rn x) = some amph := by
  intro ds
  induction ds with
  | nil => intro l h; simp [spotGo] at h
  | cons depth rest ih =>
    intro l h
    unfold spotGo at h
    split at h
    · next hget =>
      injection h with h1
      exact ⟨depth, [], rest, h1.symm, rfl, hget, by simp⟩
    · next other hget =>
      split at h
      · next heq =>
        rcases ih h with ⟨sd, l1, l2, rfl, rfl, hnone, hall⟩
        refine ⟨sd, depth :: l1, l2, rfl, rfl, hnone, ?_⟩
        intro x hx
        rcases List.mem_cons.mp hx with rfl | hx1
        · rw [hget, heq]
        · exact hall x hx1
      · exact absurd h (by simp)

theorem spotGo_skip {b : Burrow} {amph : Amphipod} {rn : Int} :
    ∀ {ds1 ds2 : List Int}, (∀ x ∈ ds1, b.get (.room rn x) = some amph) →
      spotGo b amph rn (ds1 ++ ds2) = spotGo b amph rn ds2 := by
  intro ds1
  induction ds1 with
  | nil => intro ds2 _; rfl
  | cons x rest ih =>
    intro ds2 hall
    have hx := hall x (List.mem_cons_self x rest)
    have hstep : spotGo b amph rn (x :: (rest ++ ds2)) = spotGo b amph rn (rest ++ ds2) := by
      show (match b.get (Location.room rn x) with
            | none => some (Location.room rn x)
            | some other =>
              if other = amph then spotGo b amph rn (rest ++ ds2) else none) =
          spotGo b amph rn (rest ++ ds2)
      rw [hx]
      simp
    rw [List.cons_append, hstep]
    exact ih (fun y hy => hall y (List.mem_cons_of_mem x hy))

theorem pairwise_split_lt {l1 l2 : List Int} {v x : Int}
    (hp : (l1 ++ v :: l2).Pairwise (· < ·)) (hx : x ∈ l1 ++ v :: l2) (hlt : x < v) :
    x ∈ l1 := by
  rcases List.mem_append.mp hx with h | h
  · exact h
  · rcases List.mem_cons.mp h with rfl | h1
    · omega
    · have := (List.pairwise_cons.mp (List.pairwise_append.mp hp).2.1).1 x h1
      omega

theorem pairwise_split_gt {l1 l2 : List Int} {v x : Int}
    (hp : (l1 ++ v :: l2).Pairwise (· > ·)) (hx : x ∈ l1 ++ v :: l2) (hgt : v < x) :
    x ∈ l1 := by
  rcases List.mem_append.mp hx with h | h
  · exact h
  · rcases List.mem_cons.mp h with rfl | h1
    · omega
    · have := (List.pairwise_cons.mp (List.pairwise_append.mp hp).2.1).1 x h1
      omega

theorem findSpot_spec {b : Burrow} {amph : Amphipod} {spot : Location}
    (h : findSpot b amph = some spot) :
    ∃ sd, spot = .room amph.roomNo sd ∧ 1 ≤ sd ∧ sd ≤ b.room_depth ∧
      b.get spot = none ∧
      ∀ x, sd < x → x ≤ b.room_depth → b.get (.room amph.roomNo x) = some amph := by
  unfold findSpot at h
  rcases spotGo_eq_some h with ⟨sd, l1, l2, rfl, hds, hnone, hall⟩
  have hpair : ((intRangeIncl 1 b.room_depth).reverse).Pairwise (· > ·) := by
    rw [List.pairwise_reverse]
    exact intRangeIncl_pairwise 1 b.room_depth
  have hsd : sd ∈ (intRangeIncl 1 b.room_depth).reverse := by
    rw [hds]
    exact List.mem_append.mpr (.inr (List.mem_cons_self sd l2))
  rw [List.mem_reverse, mem_intRangeIncl] at hsd
  refine ⟨sd, rfl, hsd.1, hsd.2, hnone, ?_⟩
  intro x hx1 hx2
  apply hall
  apply pairwise_split_gt (hds ▸ hpair) _ hx1
  rw [← hds, List.mem_reverse, mem_intRangeIncl]
  omega

theorem walkGo_asc_mem {b : Burrow} {f : Int → Int} {lo hi d : Int} {l : Location}
    (h : (d, l) ∈ walkGo b f (intRangeIncl lo hi)) :
    ∃ hh, l = .hallway hh ∧ d = f hh ∧ lo ≤ hh ∧ hh ≤ hi ∧ hh ∉ FORBIDDEN ∧
      b.get (.hallway hh) = none ∧
      ∀ x, lo ≤ x → x < hh → x ∉ FORBIDDEN → b.get (.hallway x) = none := by
  rcases walkGo_mem h with ⟨hh, l1, l2, rfl, rfl, hds, hf, hget, hclear⟩
  have hpair := intRangeIncl_pairwise lo hi
  have hhm : hh ∈ intRangeIncl lo hi := by
    rw [hds]
    exact List.mem_append.mpr (.inr (List.mem_cons_self hh l2))
  rw [mem_intRangeIncl] at hhm
  refine ⟨hh, rfl, rfl, hhm.1, hhm.2, hf, hget, ?_⟩
  intro x hx1 hx2 hxf
  apply hclear x _ hxf
  apply pairwise_split_lt (hds ▸ hpair) _ hx2
  rw [← hds, mem_intRangeIncl]
  omega

theorem walkGo_desc_mem {b : Burrow} {f : Int → Int} {lo hi d : Int} {l : Location}
    (h : (d, l) ∈ walkGo b f (intRangeIncl lo hi).reverse) :
    ∃ hh, l = .hallway hh ∧ d = f hh ∧ lo ≤ hh ∧ hh ≤ hi ∧ hh ∉ FORBIDDEN ∧
      b.get (.hallway hh) = none ∧
      ∀ x, hh < x → x ≤ hi → x ∉ FORBIDDEN → b.get (.hallway x) = none := by
  rcases walkGo_mem h with ⟨hh, l1, l2, rfl, rfl, hds, hf, hget, hclear⟩
  have hpair : ((intRangeIncl lo hi).reverse).Pairwise (· > ·) := by
    rw [List.pairwise_reverse]
    exact intRangeIncl_pairwise lo hi
  have hhm : hh ∈ (intRangeIncl lo hi).reverse := by
    rw [hds]
    exact List.mem_append.mpr (.inr (List.mem_cons_self hh l2))
  rw [List.mem_reverse, mem_intRangeIncl] at hhm
  refine ⟨hh, rfl, rfl, hhm.1, hhm.2, hf, hget, ?_⟩
  intro x hx1 hx2 hxf
  apply hclear x _ hxf
  apply pairwise_split_gt (hds ▸ hpair) _ hx1
  rw [← hds, List.mem_reverse, mem_intRangeIncl]
  omega

theorem hallwayMoves_mem {b : Burrow} {loc : Location} {d : Int} {dest : Location}
    (h : (d, dest) ∈ hallwayMoves b loc) :
    ∃ rs ds hh, loc = .room rs ds ∧ dest = .hallway hh ∧ hh ∉ FORBIDDEN ∧
      b.get (.hallway hh) = none ∧
      (loc.toHallway.1 < hh ∧ hh ≤ 11 ∨ 1 ≤ hh ∧ hh < loc.toHallway.1) ∧
      d = loc.toHallway.2 + iabs (loc.toHallway.1 - hh) ∧
      ∀ x, min loc.toHallway.1 hh < x → x < max loc.toHallway.1 hh →
        x ∉ FORBIDDEN → b.get (.hallway x) = none := by
  cases loc with
  | hallway x => simp [hallwayMoves] at h
  | room rs ds =>
    have hanch : (Location.room rs ds).toHallway.1 = 2 * rs + 1 := rfl
    have hdep : (Location.room rs ds).toHallway.2 = ds := rfl
    simp only [hallwayMoves] at h
    rcases List.mem_append.mp h with h1 | h1
    · rcases walkGo_asc_mem h1 with ⟨hh, rfl, rfl, hlo, hhi, hf, hget, hclear⟩
      refine ⟨rs, ds, hh, rfl, rfl, hf, hget, .inl ⟨by omega, hhi⟩, ?_, ?_⟩
      · rw [iabs_def]
        rw [hanch] at hlo ⊢
        rw [hdep]
        split <;> omega
      · intro x hx1 hx2 hxf
        apply hclear x _ _ hxf
        · rw [hanch] at hx1
          omega
        · rw [hanch] at hx1 hx2
          rcases le_or_lt hh (2 * rs + 1) with hc | hc
          · omega
          · omega
    · rcases walkGo_desc_mem h1 with ⟨hh, rfl, rfl, hlo, hhi, hf, hget, hclear⟩
      refine ⟨rs, ds, hh, rfl, rfl, hf, hget, .inr ⟨hlo, by omega⟩, ?_, ?_⟩
      · rw [iabs_def]
        rw [hanch] at hhi ⊢
        rw [hdep]
        split <;> omega
      · intro x hx1 hx2 hxf
        apply hclear x _ _ hxf
        · rw [hanch] at hx1 hx2
          omega
        · rw [hanch] at hx1 hx2
          omega

theorem betweenClear_spec {b : Burrow} {h1 h2 : Int} (h : betweenClear b h1 h2 = true) :
    ∀ x, min h1 h2 < x → x < max h1 h2 → b.get (.hallway x) = none := by
  intro x hx1 hx2
  unfold betweenClear at h
  rw [List.all_eq_true] at h
  have hx : x ∈ (if h1 < h2 then intRangeTo (h1 + 1) h2 else intRangeTo (h2 + 1) h1) := by
    split <;> rw [mem_intRangeTo] <;> omega
  have := h x hx
  rwa [Option.isNone_iff_eq_none] at this

theorem movements_mem_cases {b : Burrow} {loc : Location} {amph : Amphipod}
    {d : Int} {dest : Location} (h : (d, dest) ∈ b.movements loc amph) :
    (findSpot b amph = some dest ∧ loc.toHallway.1 ≠ dest.toHallway.1 ∧
      d = loc.toHallway.2 + iabs (loc.toHallway.1 - dest.toHallway.1) + dest.toHallway.2 ∧
      ∀ x, min loc.toHallway.1 dest.toHallway.1 < x →
        x < max loc.toHallway.1 dest.toHallway.1 → b.get (.hallway x) = none) ∨
    (d, dest) ∈ hallwayMoves b loc := by
  unfold Burrow.movements at h
  split at h
  · simp at h
  · split at h
    · next spot hspot =>
      split at h
      · split at h
        · simp at h
        · exact .inr h
      · next hne =>
        split at h
        · next hclear =>
          rcases List.mem_cons.mp h with h1 | h1
          · injection h1 with h1a h1b
            subst h1b
            exact .inl ⟨hspot, hne, h1a, betweenClear_spec hclear⟩
          · exact .inr h1
        · exact .inr h
    · exact .inr h

/-! ## Destination properties of generated moves -/

theorem movements_dest_unoccupied {b : Burrow} {loc : Location} {amph : Amphipod}
    {d : Int} {dest : Location} (h : (d, dest) ∈ b.movements loc amph) :
    b.get dest = none := by
  rcases movements_mem_cases h with ⟨hspot, _, _, _⟩ | hmem
  · rcases findSpot_spec hspot with ⟨sd, heq, _, _, hnone, _⟩
    exact hnone
  · rcases hallwayMoves_mem hmem with ⟨rs, ds, hh, _, rfl, _, hnone, _⟩
    exact hnone

theorem roomNo_bounds (amph : Amphipod) : 1 ≤ amph.roomNo ∧ amph.roomNo ≤ 4 := by
  cases amph <;> simp [Amphipod.roomNo]

theorem energy_pos (amph : Amphipod) : 1 ≤ amph.energy := by
  cases amph <;> simp [Amphipod.energy]

theorem movements_dest_valid {b : Burrow} {loc : Location} {amph : Amphipod}
    {d : Int} {dest : Location} (hloc : validLoc b.room_depth loc = true)
    (h : (d, dest) ∈ b.movements loc amph) : validLoc b.room_depth dest = true := by
  have hr := roomNo_bounds amph
  rcases movements_mem_cases h with ⟨hspot, _, _, _⟩ | hmem
  · rcases findSpot_spec hspot with ⟨sd, rfl, hsd1, hsd2, _, _⟩
    simp only [validLoc, Bool.and_eq_true, decide_eq_true_eq]
    omega
  · rcases hallwayMoves_mem hmem with ⟨rs, ds, hh, rfl, rfl, _, _, hbnd, _, _⟩
    have hanch : (Location.room rs ds).toHallway.1 = 2 * rs + 1 := rfl
    rw [hanch] at hbnd
    simp only [validLoc, Bool.and_eq_true, decide_eq_true_eq] at hloc ⊢
    omega

/-! ## Conservation through `possibilities` -/

theorem possibilities_spec {b : Burrow} {a : Amphipod} {d : Int} {b2 : Burrow}
    (h : (a, d, b2) ∈ b.possibilities) :
    b2.amphipods.length = b.amphipods.length ∧ b2.room_depth = b.room_depth ∧
      ∃ loc dest, (loc, a) ∈ b.amphipods ∧ (d, dest) ∈ b.movements loc a ∧
        b.get dest = none ∧ b2.amphipods = insertKey dest a (eraseKey loc b.amphipods) := by
  unfold Burrow.possibilities at h
  rw [List.mem_flatMap] at h
  rcases h with ⟨e, he, hmem⟩
  rw [List.mem_map] at hmem
  rcases hmem with ⟨m, hm, heq⟩
  injection heq with heq1 heq2
  injection heq2 with heq2 heq3
  subst heq1
  subst heq2
  subst heq3
  have hnone : b.get m.2 = none := movements_dest_unoccupied (by simpa using hm)
  have hkey : ∀ x ∈ eraseKey e.1 b.amphipods, x.1 ≠ m.2 := by
    intro x hx
    exact get_eq_none_iff.mp hnone x (mem_eraseKey hx)
  constructor
  · simp only []
    rw [insertKey_length hkey, eraseKey_length ⟨e, he, rfl⟩]
  refine ⟨rfl, e.1, m.2, he, by simpa using hm, hnone, rfl⟩

theorem possibilities_valid {b : Burrow} {a : Amphipod} {d : Int} {b2 : Burrow}
    (hv : ValidB b) (h : (a, d, b2) ∈ b.possibilities) : ValidB b2 := by
  rcases possibilities_spec h with ⟨_, hdep, loc, dest, hmem, hmove, _, hamph⟩
  intro e he
  rw [hamph] at he
  rw [hdep]
  rcases mem_insertKey he with rfl | he1
  · exact movements_dest_valid (hv (loc, a) hmem) hmove
  · exact hv e (mem_eraseKey he1)

/-! ## The heuristic is zero exactly on solved configurations -/

theorem distance_to_target_pos {loc : Location} (amph : Amphipod) {rd : Int}
    (hv : validLoc rd loc = true) :
    1 ≤ Location.distance loc (.room amph.roomNo 1) := by
  cases loc with
  | hallway h =>
    show 1 ≤ iabs (h - (2 * amph.roomNo + 1)) + 0 + 1
    rw [iabs_def]
    split <;> omega
  | room r d =>
    simp only [validLoc, Bool.and_eq_true, decide_eq_true_eq] at hv
    show 1 ≤ iabs (2 * r + 1 - (2 * amph.roomNo + 1)) + d + 1
    rw [iabs_def]
    split <;> omega

theorem minCost_fold_spec (b : Burrow) :
    ∀ (l : List (Location × Amphipod)) (c : Int),
      (∀ e ∈ l, validLoc b.room_depth e.1 = true) →
      c ≤ l.foldl (fun cost e => if b.snug e.1 then cost
          else cost + Location.distance e.1 (.room e.2.roomNo 1) * e.2.energy) c ∧
      (l.foldl (fun cost e => if b.snug e.1 then cost
          else cost + Location.distance e.1 (.room e.2.roomNo 1) * e.2.energy) c = c ↔
        ∀ e ∈ l, b.snug e.1 = true) := by
  intro l
  induction l with
  | nil => intro c _; simp
  | cons e rest ih =>
    intro c hv
    have hve : validLoc b.room_depth e.1 = true := hv e (List.mem_cons_self e rest)
    have hvr : ∀ x ∈ rest, validLoc b.room_depth x.1 = true :=
      fun x hx => hv x (List.mem_cons_of_mem e hx)
    simp only [List.foldl_cons]
    by_cases hsnug : b.snug e.1
    · rw [if_pos hsnug]
      rcases ih c hvr with ⟨ih1, ih2⟩
      refine ⟨ih1, ?_⟩
      rw [ih2]
      simp [hsnug]
    · rw [if_neg hsnug]
      have ht : 1 ≤ Location.distance e.1 (.room e.2.roomNo 1) * e.2.energy := by
        calc (1 : Int) = 1 * 1 := by ring
        _ ≤ Location.distance e.1 (.room e.2.roomNo 1) * e.2.energy := by
            apply mul_le_mul (distance_to_target_pos e.2 hve) (energy_pos e.2) (by omega)
            have := distance_to_target_pos e.2 hve
            omega
      rcases ih (c + Location.distance e.1 (.room e.2.roomNo 1) * e.2.energy) hvr with
        ⟨ih1, _⟩
      constructor
      · omega
      · constructor
        · intro hc
          exfalso
          omega
        · intro hall
          have := hall e (List.mem_cons_self e rest)
          exact absurd this (by simpa using hsnug)

theorem minCost_eq_zero_iff {b : Burrow} (hv : ValidB b) :
    b.minCost = 0 ↔ ∀ e ∈ b.amphipods, b.snug e.1 = true := by
  unfold Burrow.minCost
  exact (minCost_fold_spec b b.amphipods 0 hv).2

theorem minCost_nonneg {b : Burrow} (hv : ValidB b) : 0 ≤ b.minCost :=
  (minCost_fold_spec b b.amphipods 0 hv).1

/-! ## Settled tokens -/

theorem snug_spec {b : Burrow} {r d : Int} {amph : Amphipod}
    (hget : b.get (.room r d) = some amph) :
    b.snug (.room r d) = true ↔
      r = amph.roomNo ∧
        ∀ x, d < x → x ≤ b.room_depth → b.get (.room r x) = some amph := by
  simp only [Burrow.snug, hget]
  by_cases hr : r = amph.roomNo
  · rw [if_neg (by simpa using hr)]
    rw [List.all_eq_true]
    constructor
    · intro h
      refine ⟨hr, fun x hx1 hx2 => ?_⟩
      have := h x (mem_intRangeIncl.mpr ⟨by omega, hx2⟩)
      simpa using this
    · intro ⟨_, h⟩ x hx
      rw [mem_intRangeIncl] at hx
      simpa using h x (by omega) hx.2
  · rw [if_pos (by simpa using hr)]
    simp [hr]

theorem settled_no_moves {b : Burrow} {loc : Location} {amph : Amphipod}
    (hrd : 1 ≤ b.room_depth) (hget : b.get loc = some amph) (hsnug : b.snug loc = true)
    (hcase : (∃ r, loc = .room r 2) ∨ blockedIn b loc = true) :
    b.movements loc amph = [] := by
  by_cases hb : blockedIn b loc = true
  · unfold Burrow.movements
    rw [if_pos hb]
  rcases hcase with ⟨r, rfl⟩ | hblocked
  · obtain ⟨hr, hdeeper⟩ := (snug_spec hget).mp hsnug
    have hrr : amph.roomNo = r := hr.symm
    have h1 : b.get (.room r 1) = none := by
      simp only [blockedIn] at hb
      have h12 : intRangeTo 1 2 = [1] := by decide
      rw [h12] at hb
      simp only [List.any_cons, List.any_nil, Bool.or_false, Bool.not_eq_true] at hb
      rw [← Option.not_isSome_iff_eq_none, hb]
      simp
    have hlist : (intRangeIncl 1 b.room_depth).reverse =
        (intRangeIncl 2 b.room_depth).reverse ++ [1] := by
      have hc : intRangeIncl 1 b.room_depth = 1 :: intRangeIncl 2 b.room_depth := by
        unfold intRangeIncl
        exact intRangeTo_cons (by omega)
      rw [hc, List.reverse_cons]
    have hfront : ∀ x ∈ (intRangeIncl 2 b.room_depth).reverse,
        b.get (.room r x) = some amph := by
      intro x hx
      rw [List.mem_reverse, mem_intRangeIncl] at hx
      rcases eq_or_lt_of_le hx.1 with heq | hlt
      · rw [← heq]
        exact hget
      · exact hdeeper x hlt hx.2
    have hspot : findSpot b amph = some (.room r 1) := by
      unfold findSpot
      rw [hrr, hlist, spotGo_skip hfront]
      unfold spotGo
      rw [h1]
    unfold Burrow.movements
    rw [if_neg hb, hspot]
    simp only []
    rw [if_pos (show (Location.room r 2).toHallway.1 = (Location.room r 1).toHallway.1
      from rfl)]
    have hcond : (Location.room r 2).toHallway.2 = 2 ∨
        ((Location.room r 2).toHallway.2 = 1 ∧ b.get (.room amph.roomNo 2) = some amph) :=
      Or.inl rfl
    rw [if_pos hcond]
  · exact absurd hblocked hb

/-! ## The frontier comparator is a total order -/

theorem ordThen_ne_lt {a b : Ordering} : a.then b ≠ .lt ↔ a = .gt ∨ (a = .eq ∧ b ≠ .lt) := by
  cases a <;> simp [Ordering.then]

theorem ordThen_eq_gt {a b : Ordering} : a.then b = .gt ↔ a = .gt ∨ (a = .eq ∧ b = .gt) := by
  cases a <;> simp [Ordering.then]

theorem ordThen_eq_lt {a b : Ordering} : a.then b = .lt ↔ a = .lt ∨ (a = .eq ∧ b = .lt) := by
  cases a <;> simp [Ordering.then]

theorem locCmp_gt_trans {a b c : Location} (h1 : locCmp a b = .gt) (h2 : locCmp b c = .gt) :
    locCmp a c = .gt := by
  cases a <;> cases b <;> cases c <;>
    simp_all only [locCmp, ordThen_eq_gt, intCmp_eq_gt, intCmp_eq_eq] <;>
    first
      | rfl
      | omega
      | simp_all

theorem idx_inj {a b : Amphipod} (h : a.idx = b.idx) : a = b := by
  cases a <;> cases b <;> simp_all [Amphipod.idx]

theorem pairCmp_eq_iff {a b : Location × Amphipod} : pairCmp a b = .eq ↔ a = b := by
  unfold pairCmp
  rw [ordThen_eq_eq, locCmp_eq_iff, intCmp_eq_eq]
  constructor
  · intro ⟨h1, h2⟩
    exact Prod.ext h1 (idx_inj h2)
  · intro h
    rw [h]
    simp

theorem pairCmp_gt_trans {a b c : Location × Amphipod}
    (h1 : pairCmp a b = .gt) (h2 : pairCmp b c = .gt) : pairCmp a c = .gt := by
  unfold pairCmp at h1 h2 ⊢
  rw [ordThen_eq_gt] at h1 h2 ⊢
  rcases h1 with h1 | ⟨h1, h1b⟩
  · rcases h2 with h2 | ⟨h2, h2b⟩
    · exact .inl (locCmp_gt_trans h1 h2)
    · rw [locCmp_eq_iff] at h2
      rw [← h2]
      exact .inl h1
  · rw [locCmp_eq_iff] at h1
    rcases h2 with h2 | ⟨h2, h2b⟩
    · rw [h1]
      exact .inl h2
    · rw [locCmp_eq_iff] at h2
      rw [h1, h2]
      refine .inr ⟨locCmp_eq_iff.mpr rfl, ?_⟩
      rw [intCmp_eq_gt] at h1b h2b ⊢
      omega

theorem listCmpGo_eq_iff : ∀ {x y : List (Location × Amphipod)}, listCmpGo x y = .eq ↔ x = y := by
  intro x
  induction x with
  | nil => intro y; cases y <;> simp [listCmpGo]
  | cons a xs ih =>
    intro y
    cases y with
    | nil => simp [listCmpGo]
    | cons b ys =>
      simp only [listCmpGo, ordThen_eq_eq, pairCmp_eq_iff, ih, List.cons.injEq]

theorem listCmpGo_gt_trans : ∀ {x y z : List (Location × Amphipod)},
    listCmpGo x y = .gt → listCmpGo y z = .gt → listCmpGo x z = .gt := by
  intro x
  induction x with
  | nil =>
    intro y z h1 h2
    cases y <;> simp [listCmpGo] at h1
  | cons a xs ih =>
    intro y z h1 h2
    cases y with
    | nil => cases z <;> simp [listCmpGo] at h2 ⊢
    | cons b ys =>
      cases z with
      | nil => simp [listCmpGo]
      | cons c zs =>
        simp only [listCmpGo, ordThen_eq_gt] at h1 h2 ⊢
        rcases h1 with h1 | ⟨h1, h1b⟩
        · rcases h2 with h2 | ⟨h2, h2b⟩
          · exact .inl (pairCmp_gt_trans h1 h2)
          · rw [pairCmp_eq_iff] at h2
            rw [← h2]
            exact .inl h1
        · rw [pairCmp_eq_iff] at h1
          rcases h2 with h2 | ⟨h2, h2b⟩
          · rw [h1]
            exact .inl h2
          · rw [pairCmp_eq_iff] at h2
            rw [h1, h2]
            exact .inr ⟨pairCmp_eq_iff.mpr rfl, ih h1b h2b⟩

theorem listCmpGo_trichotomy (x y : List (Location × Amphipod)) :
    listCmpGo x y = .lt ∨ listCmpGo x y = .eq ∨ listCmpGo x y = .gt := by
  cases h : listCmpGo x y
  · exact .inl rfl
  · exact .inr (.inl rfl)
  · exact .inr (.inr rfl)

theorem listCmpGo_ne_lt_trans {x y z : List (Location × Amphipod)}
    (h1 : listCmpGo x y ≠ .lt) (h2 : listCmpGo y z ≠ .lt) : listCmpGo x z ≠ .lt := by
  rcases listCmpGo_trichotomy x y with hxy | hxy | hxy
  · exact absurd hxy h1
  · rw [listCmpGo_eq_iff] at hxy
    rw [hxy]
    exact h2
  · rcases listCmpGo_trichotomy y z with hyz | hyz | hyz
    · exact absurd hyz h2
    · rw [listCmpGo_eq_iff] at hyz
      rw [← hyz]
      simp [hxy]
    · simp [listCmpGo_gt_trans hxy hyz]

/-- Characterization of the frontier ordering: `cmp p q ≠ lt` means `p` is
popped no later than `q` (greater or equal in the max-heap order). -/
theorem posCmp_ne_lt_iff {p q : Possibility} :
    Possibility.cmp p q ≠ .lt ↔
      p.expected_cost < q.expected_cost ∨
        (p.expected_cost = q.expected_cost ∧
          (q.energy < p.energy ∨
            (q.energy = p.energy ∧
              listCmpGo (sortPairs p.burrow.amphipods) (sortPairs q.burrow.amphipods) ≠
                .lt))) := by
  unfold Possibility.cmp
  rcases lt_trichotomy p.expected_cost q.expected_cost with h | h | h
  · rw [if_pos (by simp [intCmp_eq_lt.mpr h])]
    have : intCmp p.expected_cost q.expected_cost = .lt := intCmp_eq_lt.mpr h
    rw [this]
    simp [Ordering.swap]
    omega
  · have heq : intCmp p.expected_cost q.expected_cost = .eq := intCmp_eq_eq.mpr h
    rw [if_neg (by simp [heq])]
    rcases lt_trichotomy p.energy q.energy with h2 | h2 | h2
    · have : intCmp p.energy q.energy = .lt := intCmp_eq_lt.mpr h2
      rw [if_pos (by simp [this]), this]
      simp
      omega
    · have : intCmp p.energy q.energy = .eq := intCmp_eq_eq.mpr h2
      rw [if_neg (by simp [this])]
      constructor
      · intro hl
        exact .inr ⟨h, .inr ⟨h2.symm, hl⟩⟩
      · intro hc hl
        rcases hc with hc | ⟨_, hc | ⟨_, hc⟩⟩
        · omega
        · omega
        · exact hc hl
    · have : intCmp p.energy q.energy = .gt := intCmp_eq_gt.mpr h2
      rw [if_pos (by simp [this]), this]
      simp
      omega
  · have : intCmp p.expected_cost q.expected_cost = .gt := intCmp_eq_gt.mpr h
    rw [if_pos (by simp [this]), this]
    simp [Ordering.swap]
    omega

theorem posCmp_ne_lt_trans {p q r : Possibility} (h1 : Possibility.cmp p q ≠ .lt)
    (h2 : Possibility.cmp q r ≠ .lt) : Possibility.cmp p r ≠ .lt := by
  rw [posCmp_ne_lt_iff] at h1 h2 ⊢
  rcases h1 with h1 | ⟨h1a, h1b⟩
  · rcases h2 with h2 | ⟨h2a, h2b⟩
    · exact .inl (by omega)
    · exact .inl (by omega)
  · rcases h2 with h2 | ⟨h2a, h2b⟩
    · exact .inl (by omega)
    · refine .inr ⟨by omega, ?_⟩
      rcases h1b with h1b | ⟨h1c, h1d⟩
      · rcases h2b with h2b | ⟨h2c, h2d⟩
        · exact .inl (by omega)
        · exact .inl (by omega)
      · rcases h2b with h2b | ⟨h2c, h2d⟩
        · exact .inl (by omega)
        · exact .inr ⟨by omega, listCmpGo_ne_lt_trans h1d h2d⟩

theorem posCmp_self_ne_lt (p : Possibility) : Possibility.cmp p p ≠ .lt := by
  rw [posCmp_ne_lt_iff]
  refine .inr ⟨rfl, .inr ⟨rfl, ?_⟩⟩
  rw [listCmpGo_eq_iff.mpr rfl]
  simp

theorem posCmp_both_ne_lt {p q : Possibility} (h1 : Possibility.cmp p q ≠ .lt)
    (h2 : Possibility.cmp q p ≠ .lt) :
    p.expected_cost = q.expected_cost ∧ p.energy = q.energy := by
  rw [posCmp_ne_lt_iff] at h1 h2
  rcases h1 with h1 | ⟨h1a, h1b⟩ <;> rcases h2 with h2 | ⟨h2a, h2b⟩ <;> omega

theorem intCmp_swap (x y : Int) : intCmp y x = (intCmp x y).swap := by
  rcases lt_trichotomy x y with h | h | h
  · rw [intCmp_eq_lt.mpr h, intCmp_eq_gt.mpr h]
    rfl
  · rw [intCmp_eq_eq.mpr h, intCmp_eq_eq.mpr h.symm]
    rfl
  · rw [intCmp_eq_gt.mpr h, intCmp_eq_lt.mpr h]
    rfl

theorem ordThen_swap (a b : Ordering) : (a.then b).swap = a.swap.then b.swap := by
  cases a <;> cases b <;> rfl

theorem locCmp_swap (a b : Location) : locCmp b a = (locCmp a b).swap := by
  cases a <;> cases b <;> simp only [locCmp] <;>
    first
      | rfl
      | rw [ordThen_swap, ← intCmp_swap, ← intCmp_swap]
      | rw [← intCmp_swap]

theorem pairCmp_swap (a b : Location × Amphipod) : pairCmp b a = (pairCmp a b).swap := by
  unfold pairCmp
  rw [ordThen_swap, ← locCmp_swap, ← intCmp_swap]

theorem listCmpGo_swap : ∀ (x y : List (Location × Amphipod)),
    listCmpGo y x = (listCmpGo x y).swap := by
  intro x
  induction x with
  | nil => intro y; cases y <;> rfl
  | cons a xs ih =>
    intro y
    cases y with
    | nil => rfl
    | cons b ys =>
      simp only [listCmpGo]
      rw [ordThen_swap, ← pairCmp_swap, ← ih]

theorem posCmp_eq_lt_iff {p q : Possibility} :
    Possibility.cmp p q = .lt ↔
      q.expected_cost < p.expected_cost ∨
        (p.expected_cost = q.expected_cost ∧
          (p.energy < q.energy ∨
            (p.energy = q.energy ∧
              listCmpGo (sortPairs p.burrow.amphipods) (sortPairs q.burrow.amphipods) =
                .lt))) := by
  unfold Possibility.cmp
  rcases lt_trichotomy p.expected_cost q.expected_cost with h | h | h
  · have h1 : intCmp p.expected_cost q.expected_cost = .lt := intCmp_eq_lt.mpr h
    rw [if_pos (by simp [h1]), h1]
    simp [Ordering.swap]
    omega
  · have heq : intCmp p.expected_cost q.expected_cost = .eq := intCmp_eq_eq.mpr h
    rw [if_neg (by simp [heq])]
    rcases lt_trichotomy p.energy q.energy with h2 | h2 | h2
    · have hl : intCmp p.energy q.energy = .lt := intCmp_eq_lt.mpr h2
      rw [if_pos (by simp [hl]), hl]
      simp
      exact .inr ⟨h, .inl h2⟩
    · have he : intCmp p.energy q.energy = .eq := intCmp_eq_eq.mpr h2
      rw [if_neg (by simp [he])]
      constructor
      · intro hl
        exact .inr ⟨h, .inr ⟨h2, hl⟩⟩
      · intro hc
        rcases hc with hc | ⟨_, hc | ⟨_, hc⟩⟩
        · omega
        · omega
        · exact hc
    · have hg : intCmp p.energy q.energy = .gt := intCmp_eq_gt.mpr h2
      rw [if_pos (by simp [hg]), hg]
      simp
      omega
  · have h1 : intCmp p.expected_cost q.expected_cost = .gt := intCmp_eq_gt.mpr h
    rw [if_pos (by simp [h1]), h1]
    simp [Ordering.swap]
    omega

theorem posCmp_lt_asymm {p q : Possibility} (h : Possibility.cmp p q = .lt) :
    Possibility.cmp q p ≠ .lt := by
  intro hc
  rw [posCmp_eq_lt_iff] at h hc
  rcases h with h | ⟨ha, h | ⟨hb, h⟩⟩ <;> rcases hc with hc | ⟨hca, hc | ⟨hcb, hc⟩⟩ <;>
    try omega
  rw [listCmpGo_swap] at hc
  rw [h] at hc
  exact absurd hc (by simp [Ordering.swap])

/-! ## Heap pop: extraction of a maximal frontier element -/

theorem heapPop_eq_none_iff {l : List Possibility} : heapPop l = none ↔ l = [] := by
  cases l with
  | nil => simp [heapPop]
  | cons p rest =>
    simp only [heapPop]
    cases hq : heapPop rest with
    | none => simp
    | some v =>
      dsimp only
      split <;> simp

theorem heapPop_mem : ∀ {l : List Possibility} {p : Possibility} {rest : List Possibility},
    heapPop l = some (p, rest) → p ∈ l := by
  intro l
  induction l with
  | nil => intro p rest h; simp [heapPop] at h
  | cons hd tl ih =>
    intro p rest h
    unfold heapPop at h
    cases hq : heapPop tl with
    | none =>
      rw [hq] at h
      injection h with h1
      injection h1 with h1a h1b
      subst h1a
      exact List.mem_cons_self hd tl
    | some v =>
      rw [hq] at h
      dsimp only at h
      split at h
      · injection h with h1
        injection h1 with h1a h1b
        subst h1a
        exact List.mem_cons_of_mem hd (ih hq)
      · injection h with h1
        injection h1 with h1a h1b
        subst h1a
        exact List.mem_cons_self hd tl

theorem heapPop_rest_mem : ∀ {l : List Possibility} {p : Possibility}
    {rest : List Possibility}, heapPop l = some (p, rest) → ∀ q ∈ rest, q ∈ l := by
  intro l
  induction l with
  | nil => intro p rest h; simp [heapPop] at h
  | cons hd tl ih =>
    intro p rest h q hq
    unfold heapPop at h
    cases hpq : heapPop tl with
    | none =>
      rw [hpq] at h
      injection h with h1
      injection h1 with h1a h1b
      subst h1b
      simp at hq
    | some v =>
      rw [hpq] at h
      dsimp only at h
      split at h
      · injection h with h1
        injection h1 with h1a h1b
        subst h1b
        rcases List.mem_cons.mp hq with rfl | hq1
        · exact List.mem_cons_self q tl
        · exact List.mem_cons_of_mem hd (ih hpq q hq1)
      · injection h with h1
        injection h1 with h1a h1b
        subst h1b
        exact List.mem_cons_of_mem hd hq

theorem heapPop_rest_length : ∀ {l : List Possibility} {p : Possibility}
    {rest : List Possibility}, heapPop l = some (p, rest) → rest.length + 1 = l.length := by
  intro l
  induction l with
  | nil => intro p rest h; simp [heapPop] at h
  | cons hd tl ih =>
    intro p rest h
    unfold heapPop at h
    cases hpq : heapPop tl with
    | none =>
      rw [hpq] at h
      injection h with h1
      injection h1 with h1a h1b
      subst h1b
      rw [heapPop_eq_none_iff] at hpq
      subst hpq
      simp
    | some v =>
      rw [hpq] at h
      dsimp only at h
      split at h
      · injection h with h1
        injection h1 with h1a h1b
        subst h1b
        have hlen : v.2.length + 1 = tl.length := ih (by rw [hpq])
        simp only [List.length_cons] at hlen ⊢
        omega
      · injection h with h1
        injection h1 with h1a h1b
        subst h1b
        simp

theorem heapPop_max : ∀ {l : List Possibility} {p : Possibility} {rest : List Possibility},
    heapPop l = some (p, rest) → ∀ q ∈ l, Possibility.cmp p q ≠ .lt := by
  intro l
  induction l with
  | nil => intro p rest h; simp [heapPop] at h
  | cons hd tl ih =>
    intro p rest h q hq
    unfold heapPop at h
    cases hpq : heapPop tl with
    | none =>
      rw [hpq] at h
      injection h with h1
      injection h1 with h1a h1b
      subst h1a
      rw [heapPop_eq_none_iff] at hpq
      subst hpq
      rcases List.mem_cons.mp hq with rfl | hq1
      · exact posCmp_self_ne_lt q
      · simp at hq1
    | some v =>
      rw [hpq] at h
      dsimp only at h
      split at h
      · next hlt =>
        injection h with h1
        injection h1 with h1a h1b
        subst h1a
        rcases List.mem_cons.mp hq with rfl | hq1
        · exact posCmp_lt_asymm hlt
        · exact ih (by rw [hpq]) q hq1
      · next hnlt =>
        injection h with h1
        injection h1 with h1a h1b
        subst h1a
        rcases List.mem_cons.mp hq with rfl | hq1
        · exact posCmp_self_ne_lt q
        · exact posCmp_ne_lt_trans hnlt (ih (by rw [hpq]) q hq1)

/-! ## The solver invariant -/

theorem expandLoop_spec (cur : Possibility) :
    ∀ (ps : List (Amphipod × Int × Burrow)) (q0 : List Possibility) (s0 : List Burrow),
      (∀ p ∈ (expandLoop cur ps q0 s0).1, p ∈ q0 ∨ ∃ t ∈ ps, p = mkPoss cur t) ∧
      (∀ b ∈ (expandLoop cur ps q0 s0).2, b ∈ s0 ∨ ∃ t ∈ ps, b = t.2.2) ∧
      (∀ b ∈ s0, b ∈ (expandLoop cur ps q0 s0).2) ∧
      ((expandLoop cur ps q0 s0).2.length + q0.length =
        s0.length + (expandLoop cur ps q0 s0).1.length) ∧
      (s0.Nodup → (expandLoop cur ps q0 s0).2.Nodup) := by
  intro ps
  induction ps with
  | nil =>
    intro q0 s0
    refine ⟨fun p hp => .inl hp, fun b hb => .inl hb, fun b hb => hb, by simp [expandLoop], fun h => h⟩
  | cons t rest ih =>
    intro q0 s0
    unfold expandLoop
    split
    · rcases ih q0 s0 with ⟨ih1, ih2, ih3, ih4, ih5⟩
      refine ⟨?_, ?_, ih3, ih4, ih5⟩
      · intro p hp
        rcases ih1 p hp with h | ⟨u, hu, hq⟩
        · exact .inl h
        · exact .inr ⟨u, List.mem_cons_of_mem t hu, hq⟩
      · intro b hb
        rcases ih2 b hb with h | ⟨u, hu, hq⟩
        · exact .inl h
        · exact .inr ⟨u, List.mem_cons_of_mem t hu, hq⟩
    · next hnew =>
      rcases ih (mkPoss cur t :: q0) (t.2.2 :: s0) with ⟨ih1, ih2, ih3, ih4, ih5⟩
      refine ⟨?_, ?_, ?_, ?_, ?_⟩
      · intro p hp
        rcases ih1 p hp with h | ⟨u, hu, hq⟩
        · rcases List.mem_cons.mp h with rfl | h1
          · exact .inr ⟨t, List.mem_cons_self t rest, rfl⟩
          · exact .inl h1
        · exact .inr ⟨u, List.mem_cons_of_mem t hu, hq⟩
      · intro b hb
        rcases ih2 b hb with h | ⟨u, hu, hq⟩
        · rcases List.mem_cons.mp h with rfl | h1
          · exact .inr ⟨t, List.mem_cons_self t rest, rfl⟩
          · exact .inl h1
        · exact .inr ⟨u, List.mem_cons_of_mem t hu, hq⟩
      · intro b hb
        exact ih3 b (List.mem_cons_of_mem _ hb)
      · simp only [List.length_cons] at ih4
        omega
      · intro hnd
        exact ih5 (List.nodup_cons.mpr ⟨hnew, hnd⟩)

structure SolverInv (init : Burrow) (s : SolverSt) : Prop where
  qReach : ∀ p ∈ s.queue, ReachesAt init p.burrow p.energy
  qExp : ∀ p ∈ s.queue, p.expected_cost = p.energy + p.burrow.minCost
  qValid : ∀ p ∈ s.queue, ValidB p.burrow
  qLen : ∀ p ∈ s.queue, p.burrow.amphipods.length = init.amphipods.length
  qDepth : ∀ p ∈ s.queue, p.burrow.room_depth = init.room_depth
  seenValid : ∀ b ∈ s.seen, ValidB b
  seenLen : ∀ b ∈ s.seen, b.amphipods.length = init.amphipods.length
  seenDepth : ∀ b ∈ s.seen, b.room_depth = init.room_depth
  seenNodup : s.seen.Nodup

theorem solverInv_new {init : Burrow} (hv : ValidB init) :
    SolverInv init (Solver.new init) := by
  constructor
  · intro p hp
    rcases List.mem_cons.mp hp with rfl | h
    · exact ReachesAt.refl
    · simp at h
  · intro p hp
    rcases List.mem_cons.mp hp with rfl | h
    · show init.minCost = 0 + init.minCost
      omega
    · simp at h
  · intro p hp
    rcases List.mem_cons.mp hp with rfl | h
    · exact hv
    · simp at h
  · intro p hp
    rcases List.mem_cons.mp hp with rfl | h
    · rfl
    · simp at h
  · intro p hp
    rcases List.mem_cons.mp hp with rfl | h
    · rfl
    · simp at h
  · intro b hb
    rcases List.mem_cons.mp hb with rfl | h
    · exact hv
    · simp at h
  · intro b hb
    rcases List.mem_cons.mp hb with rfl | h
    · rfl
    · simp at h
  · intro b hb
    rcases List.mem_cons.mp hb with rfl | h
    · rfl
    · simp at h
  · exact List.nodup_singleton init

theorem possibilities_len_depth {b : Burrow} {t : Amphipod × Int × Burrow}
    (h : t ∈ b.possibilities) :
    t.2.2.amphipods.length = b.amphipods.length ∧ t.2.2.room_depth = b.room_depth := by
  rcases t with ⟨a, d, b2⟩
  rcases possibilities_spec h with ⟨h1, h2, _⟩
  exact ⟨h1, h2⟩

theorem step_inv {init : Burrow} {s s1 : SolverSt} (inv : SolverInv init s)
    (hstep : stepSim s = (true, s1)) :
    SolverInv init s1 ∧
      s1.seen.length + s.queue.length = s.seen.length + s1.queue.length + 1 ∧
      s.seen.length ≤ s1.seen.length := by
  unfold stepSim at hstep
  cases hpop : heapPop s.queue with
  | none =>
    rw [hpop] at hstep
    simp at hstep
  | some v =>
    rw [hpop] at hstep
    dsimp only at hstep
    split at hstep
    · simp at hstep
    · injection hstep with hstep1 hstep2
      rcases v with ⟨current, rest⟩
      have hcur : current ∈ s.queue := heapPop_mem hpop
      have hrest : ∀ q ∈ rest, q ∈ s.queue := heapPop_rest_mem hpop
      have hrlen : rest.length + 1 = s.queue.length := heapPop_rest_length hpop
      rcases expandLoop_spec current current.burrow.possibilities rest s.seen with
        ⟨e1, e2, e3, e4, e5⟩
      have hq1 : s1.queue = (expandLoop current current.burrow.possibilities rest s.seen).1 := by
        rw [← hstep2]
      have hs1 : s1.seen = (expandLoop current current.burrow.possibilities rest s.seen).2 := by
        rw [← hstep2]
      have hqmem : ∀ p ∈ s1.queue, p ∈ rest ∨ ∃ t ∈ current.burrow.possibilities,
          p = mkPoss current t := by
        rw [hq1]; exact e1
      have hsmem : ∀ b ∈ s1.seen, b ∈ s.seen ∨ ∃ t ∈ current.burrow.possibilities,
          b = t.2.2 := by
        rw [hs1]; exact e2
      have hmempos : ∀ t ∈ current.burrow.possibilities,
          (t.1, t.2.1, t.2.2) ∈ current.burrow.possibilities := by
        intro t ht
        exact ht
      refine ⟨⟨?_, ?_, ?_, ?_, ?_, ?_, ?_, ?_, ?_⟩, ?_, ?_⟩
      · intro p hp
        rcases hqmem p hp with h | ⟨t, ht, rfl⟩
        · exact inv.qReach p (hrest p h)
        · exact ReachesAt.step (inv.qReach current hcur) (hmempos t ht)
      · intro p hp
        rcases hqmem p hp with h | ⟨t, ht, rfl⟩
        · exact inv.qExp p (hrest p h)
        · rfl
      · intro p hp
        rcases hqmem p hp with h | ⟨t, ht, rfl⟩
        · exact inv.qValid p (hrest p h)
        · exact possibilities_valid (inv.qValid current hcur) (hmempos t ht)
      · intro p hp
        rcases hqmem p hp with h | ⟨t, ht, rfl⟩
        · exact inv.qLen p (hrest p h)
        · rw [← inv.qLen current hcur]
          exact (possibilities_len_depth ht).1
      · intro p hp
        rcases hqmem p hp with h | ⟨t, ht, rfl⟩
        · exact inv.qDepth p (hrest p h)
        · rw [← inv.qDepth current hcur]
          exact (possibilities_len_depth ht).2
      · intro b hb
        rcases hsmem b hb with h | ⟨t, ht, rfl⟩
        · exact inv.seenValid b h
        · exact possibilities_valid (inv.qValid current hcur) (hmempos t ht)
      · intro b hb
        rcases hsmem b hb with h | ⟨t, ht, rfl⟩
        · exact inv.seenLen b h
        · rw [← inv.qLen current hcur]
          exact (possibilities_len_depth ht).1
      · intro b hb
        rcases hsmem b hb with h | ⟨t, ht, rfl⟩
        · exact inv.seenDepth b h
        · rw [← inv.qDepth current hcur]
          exact (possibilities_len_depth ht).2
      · rw [hs1]
        exact e5 inv.seenNodup
      · rw [hq1, hs1]
        omega
      · rw [hs1]
        exact (List.subperm_of_subset inv.seenNodup (fun b hb => e3 b hb)).length_le

/-! ## The state space is finite: encoding configurations -/

/-- Index of a valid cell among the finitely many board cells. -/
def locIdx (rd : Int) : Location → Nat
  | .room r d => ((r - 1) * rd + (d - 1)).toNat
  | .hallway h => (4 * rd + (h - 1)).toNat

/-- Number of distinct codes of one (cell, token) entry. -/
def entryB (rd : Int) : Nat := (4 * rd.toNat + 11) * 4

/-- Code of one (cell, token) entry. -/
def entryIdx (rd : Int) (e : Location × Amphipod) : Nat :=
  locIdx rd e.1 * 4 + e.2.idx.toNat

/-- Positional code of a whole cell-to-token assignment. -/
def encodeEntries (rd : Int) : List (Location × Amphipod) → Nat
  | [] => 0
  | e :: rest => entryIdx rd e + entryB rd * encodeEntries rd rest

theorem locIdx_lt {rd : Int} {loc : Location} (h : validLoc rd loc = true) :
    locIdx rd loc < 4 * rd.toNat + 11 := by
  cases loc with
  | room r d =>
    simp only [validLoc, Bool.and_eq_true, decide_eq_true_eq] at h
    obtain ⟨⟨⟨h1, h2⟩, h3⟩, h4⟩ := h
    have hm : (r - 1) * rd ≤ 3 * rd :=
      mul_le_mul_of_nonneg_right (by omega) (by omega)
    have h0 : 0 ≤ (r - 1) * rd := mul_nonneg (by omega) (by omega)
    simp only [locIdx]
    generalize hg : (r - 1) * rd = t at hm h0
    omega
  | hallway h2 =>
    simp only [validLoc, Bool.and_eq_true, decide_eq_true_eq] at h
    simp only [locIdx]
    omega

theorem idx_toNat_lt (a : Amphipod) : a.idx.toNat < 4 := by
  cases a <;> simp [Amphipod.idx]

theorem entryIdx_lt {rd : Int} {e : Location × Amphipod} (h : validLoc rd e.1 = true) :
    entryIdx rd e < entryB rd := by
  have h1 := locIdx_lt h
  have h2 := idx_toNat_lt e.2
  unfold entryIdx entryB
  omega

theorem locIdx_inj {rd : Int} (hrd : 0 ≤ rd) {l1 l2 : Location}
    (h1 : validLoc rd l1 = true)
    (h2 : validLoc rd l2 = true) (heq : locIdx rd l1 = locIdx rd l2) : l1 = l2 := by
  cases l1 with
  | room r1 d1 =>
    cases l2 with
    | room r2 d2 =>
      simp only [validLoc, Bool.and_eq_true, decide_eq_true_eq] at h1 h2
      obtain ⟨⟨⟨a1, a2⟩, a3⟩, a4⟩ := h1
      obtain ⟨⟨⟨b1, b2⟩, b3⟩, b4⟩ := h2
      simp only [locIdx] at heq
      have n1 : 0 ≤ (r1 - 1) * rd := mul_nonneg (by omega) (by omega)
      have n2 : 0 ≤ (r2 - 1) * rd := mul_nonneg (by omega) (by omega)
      have heqi : (r1 - 1) * rd + (d1 - 1) = (r2 - 1) * rd + (d2 - 1) := by
        generalize hg1 : (r1 - 1) * rd = t1 at n1 heq
        generalize hg2 : (r2 - 1) * rd = t2 at n2 heq
        omega
      have hreq : r1 = r2 := by
        rcases lt_trichotomy r1 r2 with hc | hc | hc
        · exfalso
          have h5 : r1 * rd ≤ (r2 - 1) * rd :=
            mul_le_mul_of_nonneg_right (by omega) (by omega)
          have h6 : (r1 - 1) * rd + rd = r1 * rd := by ring
          linarith
        · exact hc
        · exfalso
          have h5 : r2 * rd ≤ (r1 - 1) * rd :=
            mul_le_mul_of_nonneg_right (by omega) (by omega)
          have h6 : (r2 - 1) * rd + rd = r2 * rd := by ring
          linarith
      subst hreq
      have : d1 = d2 := by
        generalize hg1 : (r1 - 1) * rd = t1 at heqi
        omega
      rw [this]
    | hallway hh =>
      exfalso
      simp only [validLoc, Bool.and_eq_true, decide_eq_true_eq] at h1 h2
      obtain ⟨⟨⟨a1, a2⟩, a3⟩, a4⟩ := h1
      simp only [locIdx] at heq
      have hm : (r1 - 1) * rd ≤ 3 * rd :=
        mul_le_mul_of_nonneg_right (by omega) (by omega)
      have n1 : 0 ≤ (r1 - 1) * rd := mul_nonneg (by omega) (by omega)
      generalize hg1 : (r1 - 1) * rd = t1 at hm n1 heq
      omega
  | hallway h1h =>
    cases l2 with
    | room r2 d2 =>
      exfalso
      simp only [validLoc, Bool.and_eq_true, decide_eq_true_eq] at h1 h2
      obtain ⟨⟨⟨b1, b2⟩, b3⟩, b4⟩ := h2
      simp only [locIdx] at heq
      have hm : (r2 - 1) * rd ≤ 3 * rd :=
        mul_le_mul_of_nonneg_right (by omega) (by omega)
      have n2 : 0 ≤ (r2 - 1) * rd := mul_nonneg (by omega) (by omega)
      generalize hg2 : (r2 - 1) * rd = t2 at hm n2 heq
      omega
    | hallway h2h =>
      simp only [validLoc, Bool.and_eq_true, decide_eq_true_eq] at h1 h2
      simp only [locIdx] at heq
      have : h1h = h2h := by omega
      rw [this]

theorem idx_toNat_inj {a b : Amphipod} (h : a.idx.toNat = b.idx.toNat) : a = b := by
  cases a <;> cases b <;> simp_all [Amphipod.idx]

theorem entryIdx_inj {rd : Int} (hrd : 0 ≤ rd) {e1 e2 : Location × Amphipod}
    (h1 : validLoc rd e1.1 = true) (h2 : validLoc rd e2.1 = true)
    (heq : entryIdx rd e1 = entryIdx rd e2) : e1 = e2 := by
  unfold entryIdx at heq
  have f1 := idx_toNat_lt e1.2
  have f2 := idx_toNat_lt e2.2
  have hl : locIdx rd e1.1 = locIdx rd e2.1 := by omega
  have ha : e1.2.idx.toNat = e2.2.idx.toNat := by omega
  exact Prod.ext (locIdx_inj hrd h1 h2 hl) (idx_toNat_inj ha)

theorem encodeEntries_inj {rd : Int} (hrd : 0 ≤ rd) : ∀ {l1 l2 : List (Location × Amphipod)},
    l1.length = l2.length → (∀ e ∈ l1, validLoc rd e.1 = true) →
    (∀ e ∈ l2, validLoc rd e.1 = true) →
    encodeEntries rd l1 = encodeEntries rd l2 → l1 = l2 := by
  intro l1
  induction l1 with
  | nil =>
    intro l2 hlen _ _ _
    cases l2 with
    | nil => rfl
    | cons e rest => simp at hlen
  | cons e1 r1 ih =>
    intro l2 hlen hv1 hv2 henc
    cases l2 with
    | nil => simp at hlen
    | cons e2 r2 =>
      have hb1 : entryIdx rd e1 < entryB rd := entryIdx_lt (hv1 e1 (List.mem_cons_self e1 r1))
      have hb2 : entryIdx rd e2 < entryB rd := entryIdx_lt (hv2 e2 (List.mem_cons_self e2 r2))
      simp only [encodeEntries] at henc
      have hmod : entryIdx rd e1 = entryIdx rd e2 := by
        have m1 : (entryIdx rd e1 + entryB rd * encodeEntries rd r1) % entryB rd =
            entryIdx rd e1 := by
          rw [Nat.add_mul_mod_self_left]
          exact Nat.mod_eq_of_lt hb1
        have m2 : (entryIdx rd e2 + entryB rd * encodeEntries rd r2) % entryB rd =
            entryIdx rd e2 := by
          rw [Nat.add_mul_mod_self_left]
          exact Nat.mod_eq_of_lt hb2
        rw [← m1, ← m2, henc]
      have htail : encodeEntries rd r1 = encodeEntries rd r2 := by
        have hBpos : 0 < entryB rd := by unfold entryB; omega
        have : entryB rd * encodeEntries rd r1 = entryB rd * encodeEntries rd r2 := by
          omega
        exact Nat.eq_of_mul_eq_mul_left hBpos this
      have he : e1 = e2 := entryIdx_inj hrd (hv1 e1 (List.mem_cons_self e1 r1))
        (hv2 e2 (List.mem_cons_self e2 r2)) hmod
      have hr : r1 = r2 := ih (by simpa using hlen)
        (fun e he => hv1 e (List.mem_cons_of_mem e1 he))
        (fun e he => hv2 e (List.mem_cons_of_mem e2 he)) htail
      rw [he, hr]

theorem encodeEntries_lt {rd : Int} : ∀ {l : List (Location × Amphipod)},
    (∀ e ∈ l, validLoc rd e.1 = true) → encodeEntries rd l < entryB rd ^ l.length := by
  intro l
  induction l with
  | nil => intro _; simp [encodeEntries]
  | cons e rest ih =>
    intro hv
    have h1 : entryIdx rd e < entryB rd := entryIdx_lt (hv e (List.mem_cons_self e rest))
    have h2 : encodeEntries rd rest < entryB rd ^ rest.length :=
      ih (fun x hx => hv x (List.mem_cons_of_mem e hx))
    simp only [encodeEntries, List.length_cons, pow_succ]
    calc entryIdx rd e + entryB rd * encodeEntries rd rest
        < entryB rd * encodeEntries rd rest + entryB rd := by omega
      _ = entryB rd * (encodeEntries rd rest + 1) := by ring
      _ ≤ entryB rd * entryB rd ^ rest.length := Nat.mul_le_mul_left _ (by omega)
      _ = entryB rd ^ rest.length * entryB rd := by ring

/-- Upper bound on the number of configurations the seen set can hold. -/
def stateBound (init : Burrow) : Nat :=
  entryB init.room_depth ^ init.amphipods.length

theorem seen_length_le {init : Burrow} (hrd : 0 ≤ init.room_depth) {s : SolverSt}
    (inv : SolverInv init s) :
    s.seen.length ≤ stateBound init := by
  have hinj : ∀ b1 ∈ s.seen, ∀ b2 ∈ s.seen,
      encodeEntries init.room_depth b1.amphipods =
        encodeEntries init.room_depth b2.amphipods → b1 = b2 := by
    intro b1 hb1 b2 hb2 henc
    have hv1 : ∀ e ∈ b1.amphipods, validLoc init.room_depth e.1 = true := by
      intro e he
      rw [← inv.seenDepth b1 hb1]
      exact inv.seenValid b1 hb1 e he
    have hv2 : ∀ e ∈ b2.amphipods, validLoc init.room_depth e.1 = true := by
      intro e he
      rw [← inv.seenDepth b2 hb2]
      exact inv.seenValid b2 hb2 e he
    have hlen : b1.amphipods.length = b2.amphipods.length := by
      rw [inv.seenLen b1 hb1, inv.seenLen b2 hb2]
    have hamph := encodeEntries_inj hrd hlen hv1 hv2 henc
    cases b1 with
    | mk a1 d1 =>
      cases b2 with
      | mk a2 d2 =>
        have hd : d1 = d2 := by
          have e1 := inv.seenDepth _ hb1
          have e2 := inv.seenDepth _ hb2
          simp only at e1 e2
          rw [e1, e2]
        simp only at hamph
        rw [hamph, hd]
  have hmapnd : (s.seen.map (fun b => encodeEntries init.room_depth b.amphipods)).Nodup :=
    inv.seenNodup.map_on hinj
  have hbnd : ∀ x ∈ s.seen.map (fun b => encodeEntries init.room_depth b.amphipods),
      x < stateBound init := by
    intro x hx
    rw [List.mem_map] at hx
    rcases hx with ⟨b, hb, rfl⟩
    have hv : ∀ e ∈ b.amphipods, validLoc init.room_depth e.1 = true := by
      intro e he
      rw [← inv.seenDepth b hb]
      exact inv.seenValid b hb e he
    have := encodeEntries_lt hv
    rw [inv.seenLen b hb] at this
    exact this
  have hsub : (s.seen.map (fun b => encodeEntries init.room_depth b.amphipods)).toFinset ⊆
      Finset.range (stateBound init) := by
    intro x hx
    rw [List.mem_toFinset] at hx
    rw [Finset.mem_range]
    exact hbnd x hx
  have hcard := Finset.card_le_card hsub
  rw [Finset.card_range, List.toFinset_card_of_nodup hmapnd] at hcard
  simpa using hcard

/-! ## Termination and soundness of the search loop -/

theorem solveFuel_runs {init : Burrow} (hrd : 0 ≤ init.room_depth) :
    ∀ (m : Nat) (s : SolverSt), SolverInv init s →
      2 * (stateBound init - s.seen.length) + s.queue.length ≤ m →
      (solveFuel (m + 1) s).isSome := by
  intro m
  induction m with
  | zero =>
    intro s inv hm
    have hq : s.queue = [] := by
      cases hql : s.queue with
      | nil => rfl
      | cons p rest =>
        rw [hql] at hm
        simp at hm
    have hss : stepSim s = (false, s) := by
      unfold stepSim
      rw [hq]
      rfl
    unfold solveFuel
    rw [hss]
    simp
  | succ m ih =>
    intro s inv hm
    unfold solveFuel
    cases hstep : stepSim s with
    | mk more s1 =>
      cases more with
      | false => simp
      | true =>
        dsimp only
        rcases step_inv inv hstep with ⟨inv1, hlen, hgrow⟩
        apply ih s1 inv1
        have hb := seen_length_le hrd inv1
        omega

theorem solve_sound_aux {init : Burrow} :
    ∀ (fuel : Nat) (s : SolverSt) (c : Int), SolverInv init s →
      solveFuel fuel s = some (some c) →
      ∃ b, ReachesAt init b c ∧ (∀ e ∈ b.amphipods, b.snug e.1 = true) := by
  intro fuel
  induction fuel with
  | zero =>
    intro s c _ h
    simp [solveFuel] at h
  | succ fuel ih =>
    intro s c inv h
    unfold solveFuel at h
    cases hstep : stepSim s with
    | mk more s1 =>
      rw [hstep] at h
      cases more with
      | true =>
        dsimp only at h
        exact ih s1 c (step_inv inv hstep).1 h
      | false =>
        dsimp only at h
        injection h with h1
        unfold stepSim at hstep
        cases hpop : heapPop s.queue with
        | none =>
          rw [hpop] at hstep
          dsimp only at hstep
          injection hstep with hmore hs1
          subst hs1
          rw [hpop] at h1
          simp at h1
        | some v =>
          rw [hpop] at hstep
          dsimp only at hstep
          split at hstep
          · next hcomp =>
            injection hstep with hmore hs1
            have hvq : v.1 ∈ s.queue := heapPop_mem (by rw [hpop])
            rw [Possibility.complete, beq_iff_eq] at hcomp
            have hq1 : s1.queue = v.1 :: v.2 := by rw [← hs1]
            rw [hq1] at h1
            cases hpk : heapPop (v.1 :: v.2) with
            | none =>
              rw [heapPop_eq_none_iff] at hpk
              simp at hpk
            | some w =>
              rw [hpk] at h1
              simp only [Option.map_some'] at h1
              injection h1 with h2
              have hwmem : w.1 ∈ v.1 :: v.2 := heapPop_mem (by rw [hpk])
              have hmax2 := heapPop_max (l := v.1 :: v.2) (by rw [hpk])
              have hmax1 := heapPop_max (l := s.queue) (by rw [hpop])
              have hwq : w.1 ∈ s.queue := by
                rcases List.mem_cons.mp hwmem with hw | hw
                · rw [hw]
                  exact hvq
                · exact heapPop_rest_mem (by rw [hpop]) w.1 hw
              have hzero : w.1.burrow.minCost = 0 := by
                rcases List.mem_cons.mp hwmem with hw | hw
                · have hexp := inv.qExp w.1 hwq
                  rw [hw] at hexp ⊢
                  omega
                · have hcmp1 : Possibility.cmp v.1 w.1 ≠ .lt :=
                    hmax1 w.1 (heapPop_rest_mem (by rw [hpop]) w.1 hw)
                  have hcmp2 : Possibility.cmp w.1 v.1 ≠ .lt :=
                    hmax2 v.1 (List.mem_cons_self v.1 v.2)
                  have heqs := posCmp_both_ne_lt hcmp2 hcmp1
                  have hexp := inv.qExp w.1 hwq
                  omega
              refine ⟨w.1.burrow, ?_, ?_⟩
              · rw [← h2]
                exact inv.qReach w.1 hwq
              · exact (minCost_eq_zero_iff (inv.qValid w.1 hwq)).mp hzero
          · exact absurd hstep (by simp)

/-! ## The input parser (`parser::burrow` / `Burrow::from_str`) -/

/-- Mirrors nom `char(c)`. -/
def pChar (c : Char) : List Char → Option (List Char)
  | [] => none
  | x :: rest => if x = c then some rest else none

/-- Mirrors nom `tag(t)`. -/
def pTag : List Char → List Char → Option (List Char)
  | [], input => some input
  | c :: cs, input =>
    match pChar c input with
    | none => none
    | some rest => pTag cs rest

/-- Mirrors `parser::amphipod`. -/
def pAmphipod : List Char → Option (List Char × Amphipod)
  | [] => none
  | c :: rest =>
    if c = 'A' then some (rest, .A)
    else if c = 'B' then some (rest, .B)
    else if c = 'C' then some (rest, .C)
    else if c = 'D' then some (rest, .D)
    else none

/-- Mirrors `parser::location` (`amphipod` or `.`). -/
def pLocation (input : List Char) : Option (List Char × Option Amphipod) :=
  match pAmphipod input with
  | some (rest, a) => some (rest, some a)
  | none =>
    match pChar '.' input with
    | some rest => some (rest, none)
    | none => none

/-- Mirrors nom `many_m_n(n, n, p)`: exactly `n` repetitions. -/
def pRepeat (p : List Char → Option (List Char × Option Amphipod)) :
    Nat → List Char → Option (List Char × List (Option Amphipod))
  | 0, input => some (input, [])
  | n + 1, input =>
    match p input with
    | none => none
    | some (rest, v) =>
      match pRepeat p n rest with
      | none => none
      | some (rest2, vs) => some (rest2, v :: vs)

/-- Mirrors `parser::room_row`: `#` then four `location#`. -/
def pRoomRow (input : List Char) : Option (List Char × List (Option Amphipod)) :=
  match pChar '#' input with
  | none => none
  | some r1 =>
    pRepeat (fun inp =>
      match pLocation inp with
      | none => none
      | some (r, v) =>
        match pChar '#' r with
        | none => none
        | some r2 => some (r2, v)) 4 r1

/-- Mirrors nom `many0(char(c))`, returning (consumed, rest). -/
def spanChar (c : Char) : List Char → List Char × List Char
  | [] => ([], [])
  | x :: rest =>
    if x = c then
      ((spanChar c rest).1.cons x, (spanChar c rest).2)
    else ([], x :: rest)

/-- Mirrors the library `ws`: `many0(one_of " \n"))`, returning the rest. -/
def spanWs : List Char → List Char
  | [] => []
  | x :: rest => if x = ' ' ∨ x = '\n' then spanWs rest else x :: rest

/-- One iteration of the `more_rooms` loop: `indent`, two spaces, a room row,
then a newline. -/
def pMoreRoomRow (indent : List Char) (input : List Char) :
    Option (List Char × List (Option Amphipod)) :=
  match pTag indent input with
  | none => none
  | some r1 =>
    match pTag [' ', ' '] r1 with
    | none => none
    | some r2 =>
      match pRoomRow r2 with
      | none => none
      | some (r3, row) =>
        match pChar '\n' r3 with
        | none => none
        | some r4 => some (r4, row)

/-- Mirrors `many0` over the `more_rooms` row parser (backtracking on
failure); fuel bounds the number of iterations. -/
def pMoreRooms (indent : List Char) : Nat → List Char →
    List Char × List (List (Option Amphipod))
  | 0, input => (input, [])
  | fuel + 1, input =>
    match pMoreRoomRow indent input with
    | none => (input, [])
    | some (rest, row) =>
      ((pMoreRooms indent fuel rest).1, row :: (pMoreRooms indent fuel rest).2)

/-- Hallway insertions of `parser::burrow` (locations 1..=11). -/
def insertHall : List (Option Amphipod) → Int → List (Location × Amphipod) →
    List (Location × Amphipod)
  | [], _, acc => acc
  | none :: rest, i, acc => insertHall rest (i + 1) acc
  | some a :: rest, i, acc => insertHall rest (i + 1) (insertKey (.hallway i) a acc)

/-- Room-row insertions of `parser::burrow` (rooms 1..=4 at a fixed depth). -/
def insertRoomRow : List (Option Amphipod) → Int → Int → List (Location × Amphipod) →
    List (Location × Amphipod)
  | [], _, _, acc => acc
  | none :: rest, r, d, acc => insertRoomRow rest (r + 1) d acc
  | some a :: rest, r, d, acc => insertRoomRow rest (r + 1) d (insertKey (.room r d) a acc)

/-- Insertions for the rows below depth 1. -/
def insertMoreRows : List (List (Option Amphipod)) → Int → List (Location × Amphipod) →
    List (Location × Amphipod)
  | [], _, acc => acc
  | row :: rest, d, acc => insertMoreRows rest (d + 1) (insertRoomRow row 1 d acc)

/-- The `Burrow` value built at the end of `parser::burrow`. -/
def buildBurrow (hall : List (Option Amphipod)) (rooms1 : List (Option Amphipod))
    (more : List (List (Option Amphipod))) : Burrow :=
  { amphipods := insertMoreRows more 2 (insertRoomRow rooms1 1 1 (insertHall hall 1 [])),
    room_depth := Int.ofNat more.length + 1 }

/-- Mirrors `parser::burrow`. -/
def parseBurrow (input : List Char) : Option (List Char × Burrow) :=
  let r0 := (spanChar '\n' input).2
  let indent := (spanChar ' ' r0).1
  let r1 := (spanChar ' ' r0).2
  match pTag ("#############".toList) r1 with
  | none => none
  | some r2 =>
    match pChar '\n' r2 with
    | none => none
    | some r3 =>
      match pTag indent r3 with
      | none => none
      | some r4 =>
        match pChar '#' r4 with
        | none => none
        | some r5 =>
          match pRepeat pLocation 11 r5 with
          | none => none
          | some (r6, hallways) =>
            match pTag ("#\n".toList) r6 with
            | none => none
            | some r7 =>
              match pTag indent r7 with
              | none => none
              | some r8 =>
                match pTag ("##".toList) r8 with
                | none => none
                | some r9 =>
                  match pRoomRow r9 with
                  | none => none
                  | some (r10, rooms1) =>
                    match pTag ("##\n".toList) r10 with
                    | none => none
                    | some r11 =>
                      let mr := pMoreRooms indent r11.length r11
                      match pTag indent mr.1 with
                      | none => none
                      | some r12 =>
                        match pTag ("  #########".toList) r12 with
                        | none => none
                        | some r13 =>
                          some (spanWs r13, buildBurrow hallways rooms1 mr.2)

/-- Mirrors `parser::only_burrow` and hence `Burrow::from_str`: `none` is the
construction-time failure surfaced to the caller. -/
def onlyBurrow (s : String) : Option Burrow :=
  match parseBurrow s.toList with
  | none => none
  | some (rest, b) => if spanWs rest = [] then some b else none

/-- Count of tokens of one type in a configuration. -/
def countTok (b : Burrow) (a : Amphipod) : Nat :=
  (b.amphipods.filter (fun e => decide (e.2 = a))).length

/-! ## Replayed move sequences are legal reachability witnesses -/

theorem applyMove_mem {b : Burrow} {loc dest : Location} {r : Int × Burrow}
    (h : applyMove b loc dest = some r) :
    ∃ amph m1, (amph, m1, r.2) ∈ b.possibilities ∧ r.1 = m1 * amph.energy := by
  unfold applyMove at h
  cases hget : b.get loc with
  | none =>
    rw [hget] at h
    simp at h
  | some amph =>
    rw [hget] at h
    dsimp only at h
    cases hfind : (b.movements loc amph).find? (fun m => decide (m.2 = dest)) with
    | none =>
      rw [hfind] at h
      simp at h
    | some m =>
      rw [hfind] at h
      dsimp only at h
      injection h with h1
      have hm : m ∈ b.movements loc amph := List.mem_of_find?_eq_some hfind
      have hd : m.2 = dest := by simpa using List.find?_some hfind
      have he : (loc, amph) ∈ b.amphipods := get_eq_some_mem hget
      refine ⟨amph, m.1, ?_, ?_⟩
      · rw [← h1]
        unfold Burrow.possibilities
        rw [List.mem_flatMap]
        refine ⟨(loc, amph), he, ?_⟩
        rw [List.mem_map]
        refine ⟨m, hm, ?_⟩
        rw [hd]
      · rw [← h1]

theorem runMoves_reaches {init : Burrow} :
    ∀ (ms : List (Location × Location)) (b : Burrow) (c ct : Int) (b2 : Burrow),
      ReachesAt init b c → runMoves b c ms = some (ct, b2) → ReachesAt init b2 ct := by
  intro ms
  induction ms with
  | nil =>
    intro b c ct b2 hr h
    unfold runMoves at h
    injection h with h1
    injection h1 with h1a h1b
    subst h1a
    subst h1b
    exact hr
  | cons mv rest ih =>
    intro b c ct b2 hr h
    unfold runMoves at h
    cases happ : applyMove b mv.1 mv.2 with
    | none =>
      rw [happ] at h
      simp at h
    | some r =>
      rw [happ] at h
      dsimp only at h
      rcases applyMove_mem happ with ⟨amph, m1, hmem, hdc⟩
      have hr2 : ReachesAt init r.2 (c + r.1) := by
        rw [hdc]
        exact ReachesAt.step hr hmem
      exact ih r.2 (c + r.1) ct b2 hr2 h

/-! ## Claim theorems -/

def cexC1moves : List (Location × Location) :=
  [(.room 1 2, .hallway 2), (.hallway 6, .room 1 2), (.room 4 2, .hallway 6),
   (.room 3 1, .room 4 2), (.room 3 2, .hallway 8), (.hallway 6, .room 3 2),
   (.hallway 8, .room 2 1), (.hallway 10, .room 3 1), (.hallway 11, .room 1 1),
   (.hallway 2, .room 4 1)]

def cexC1solved : Burrow :=
  { amphipods :=
      [(.room 1 1, .A), (.room 1 2, .A), (.room 2 1, .B), (.room 2 2, .B),
       (.room 3 1, .C), (.room 3 2, .C), (.room 4 1, .D), (.room 4 2, .D)],
    room_depth := 2 }

/-- C1 counterexample: on the well-formed initial configuration `cexC1`
(two tokens of each type, depths within room depth 2, no cell occupied twice,
no token on a forbidden corridor cell), `Solver::solve` returns 17664, yet a
legal move sequence (each move generated by `Burrow::possibilities`, charged
`distance * energy`) reaches a fully solved configuration at total cost 17284;
so the returned cost is not the minimum over legal move sequences. -/
theorem claim_C1_counterexample :
    solveFuel 50 (Solver.new cexC1) = some (some 17664) ∧
      ReachesAt cexC1 cexC1solved 17284 ∧
      (∀ e ∈ cexC1solved.amphipods, cexC1solved.snug e.1 = true) ∧
      (17284 : Int) < 17664 := by
  refine ⟨by decide, ?_, by decide, by decide⟩
  exact runMoves_reaches cexC1moves cexC1 0 17284 cexC1solved ReachesAt.refl (by decide)

/-- C1 (amended): when `Solver::solve` returns `Some(c)` on a valid initial
configuration, `c` is the accumulated cost of some sequence of generated moves
from the initial configuration to a fully solved configuration (every occupied
cell snug) — an achievable cost, but not necessarily the minimum, because a
configuration first reached by a more expensive path is never re-admitted to
the frontier. -/
theorem claim_C1_amended (init : Burrow) (hv : ValidB init) (fuel : Nat) (c : Int)
    (h : solveFuel fuel (Solver.new init) = some (some c)) :
    ∃ b, ReachesAt init b c ∧ ∀ e ∈ b.amphipods, b.snug e.1 = true :=
  solve_sound_aux fuel (Solver.new init) c (solverInv_new hv) h

def w1Burrow : Burrow := { amphipods := [(.room 1 1, .A)], room_depth := 1 }

theorem claim_C1_amended_witness :
    ValidB w1Burrow ∧ ∃ b, ReachesAt w1Burrow b 0 ∧ ∀ e ∈ b.amphipods, b.snug e.1 = true :=
  ⟨by decide, claim_C1_amended w1Burrow (by decide) 3 0 (by decide)⟩

def cexC2a : Possibility :=
  { energy := 0, expected_cost := 10, burrow := { amphipods := [(.hallway 1, .A)], room_depth := 1 } }

def cexC2b : Possibility :=
  { energy := 4, expected_cost := 10, burrow := { amphipods := [(.hallway 2, .A)], room_depth := 1 } }

/-- C2 counterexample: two frontier nodes with equal `expected_cost` and
different `energy`; the heap pops the node with the LARGER accumulated
energy first, not the smaller one as claimed. -/
theorem claim_C2_counterexample :
    cexC2a.expected_cost = cexC2b.expected_cost ∧ cexC2a.energy < cexC2b.energy ∧
      heapPop [cexC2a, cexC2b] = some (cexC2b, [cexC2a]) := by decide

/-- C2 (amended): the frontier pops nodes primarily by ascending
`expected_cost`; among nodes with equal `expected_cost` it pops the one with
the LARGER (descending) accumulated `energy` first; remaining ties are decided
by the lexicographic comparison of the sorted cell-to-token assignment lists;
and a popped node is always maximal in this order. -/
theorem claim_C2_amended :
    (∀ p q : Possibility, p.expected_cost < q.expected_cost →
      Possibility.cmp p q = .gt) ∧
    (∀ p q : Possibility, p.expected_cost = q.expected_cost → q.energy < p.energy →
      Possibility.cmp p q = .gt) ∧
    (∀ p q : Possibility, p.expected_cost = q.expected_cost → p.energy = q.energy →
      Possibility.cmp p q =
        listCmpGo (sortPairs p.burrow.amphipods) (sortPairs q.burrow.amphipods)) ∧
    (∀ (l : List Possibility) (p : Possibility) (rest : List Possibility),
      heapPop l = some (p, rest) → ∀ q ∈ l, Possibility.cmp p q ≠ .lt) := by
  refine ⟨?_, ?_, ?_, fun l p rest h q hq => heapPop_max h q hq⟩
  · intro p q h
    have h1 : intCmp p.expected_cost q.expected_cost = .lt := intCmp_eq_lt.mpr h
    simp [Possibility.cmp, h1, Ordering.swap]
  · intro p q h he
    have h1 : intCmp p.expected_cost q.expected_cost = .eq := intCmp_eq_eq.mpr h
    have h2 : intCmp p.energy q.energy = .gt := intCmp_eq_gt.mpr he
    simp [Possibility.cmp, h1, h2]
  · intro p q h he
    have h1 : intCmp p.expected_cost q.expected_cost = .eq := intCmp_eq_eq.mpr h
    have h2 : intCmp p.energy q.energy = .eq := intCmp_eq_eq.mpr he
    simp [Possibility.cmp, h1, h2]

theorem claim_C2_amended_witness : Possibility.cmp cexC2b cexC2a = .gt :=
  claim_C2_amended.2.1 cexC2b cexC2a (by decide) (by decide)

def cexC3 : Burrow := { amphipods := [(.room 1 1, .A), (.room 1 2, .A)], room_depth := 2 }

/-- C3 counterexample: in a configuration whose room 1 is completely and
correctly filled with two A tokens, the token at `Room(1,1)` is settled
(`snug`), yet `Burrow::movements` offers it corridor destinations — a settled
token at the top of a full room can still move. -/
theorem claim_C3_counterexample :
    cexC3.snug (.room 1 1) = true ∧ cexC3.get (.room 1 1) = some .A ∧
      cexC3.movements (.room 1 1) .A ≠ [] := by decide

/-- C3 (amended): a settled token generates no moves when it sits at depth 2
of its room, or when some shallower cell of its room is occupied (it is
blocked in); a settled token at depth 1 of a fully correct room, or at depth
at least 3 with all shallower cells empty, may still be offered corridor
moves. -/
theorem claim_C3_amended (b : Burrow) (loc : Location) (amph : Amphipod)
    (hrd : 1 ≤ b.room_depth) (hget : b.get loc = some amph) (hsnug : b.snug loc = true)
    (hcase : (∃ r, loc = .room r 2) ∨ blockedIn b loc = true) :
    b.movements loc amph = [] :=
  settled_no_moves hrd hget hsnug hcase

def wC3 : Burrow := { amphipods := [(.room 2 2, .B)], room_depth := 2 }

theorem claim_C3_amended_witness : wC3.movements (.room 2 2) .B = [] :=
  claim_C3_amended wC3 (.room 2 2) .B (by decide) (by decide) (by decide)
    (.inl ⟨2, rfl⟩)

def cexC4 : Burrow := { amphipods := [(.room 1 1, .B), (.hallway 5, .D)], room_depth := 1 }

/-- C4 counterexample: with a token parked on the forbidden stopping cell 5,
the move `(4, Hallway 6)` is generated for the `B` at `Room(1,1)` (anchor 3)
even though corridor position 5 — strictly between the two anchors — is
occupied: the corridor walk skips forbidden cells without an occupancy
check. -/
theorem claim_C4_counterexample :
    (4, Location.hallway 6) ∈ cexC4.movements (.room 1 1) .B ∧
      cexC4.get (.hallway 5) = some .D ∧ (Location.room 1 1).toHallway.1 = 3 ∧
      (Location.hallway 6).toHallway.1 = 6 ∧ (3 : Int) < 5 ∧ (5 : Int) < 6 := by decide

/-- C4 (amended): a generated move to a Room destination has every corridor
position strictly between the two anchors unoccupied; a generated move to a
Corridor destination has every NON-FORBIDDEN corridor position strictly
between the anchors unoccupied (forbidden stopping positions 3, 5, 7, 9 are
skipped without an occupancy check). -/
theorem claim_C4_amended (b : Burrow) (loc : Location) (amph : Amphipod) (d : Int)
    (dest : Location) (h : (d, dest) ∈ b.movements loc amph) :
    (∀ r2 d2, dest = .room r2 d2 →
      ∀ x, min loc.toHallway.1 dest.toHallway.1 < x →
        x < max loc.toHallway.1 dest.toHallway.1 → b.get (.hallway x) = none) ∧
    (∀ h2, dest = .hallway h2 →
      ∀ x, min loc.toHallway.1 h2 < x → x < max loc.toHallway.1 h2 →
        x ∉ FORBIDDEN → b.get (.hallway x) = none) := by
  rcases movements_mem_cases h with ⟨hspot, hne, hd, hclear⟩ | hmem
  · constructor
    · intro r2 d2 heq x hx1 hx2
      exact hclear x hx1 hx2
    · intro h2 heq
      rcases findSpot_spec hspot with ⟨sd, hsp, _, _, _, _⟩
      rw [heq] at hsp
      exact absurd hsp (by simp)
  · rcases hallwayMoves_mem hmem with ⟨rs, ds, hh, hloc, hdest, hf, hget, hbnd, hdd, hclear⟩
    constructor
    · intro r2 d2 heq
      rw [hdest] at heq
      exact absurd heq (by simp)
    · intro h2 heq x hx1 hx2 hxf
      rw [hdest] at heq
      injection heq with heq1
      subst heq1
      exact hclear x hx1 hx2 hxf

theorem claim_C4_amended_witness : cexC4.get (.hallway 4) = none :=
  (claim_C4_amended cexC4 (.room 1 1) .B 4 (.hallway 6) (by decide)).2 6 rfl 4
    (by decide) (by decide) (by decide)

def cexC5 : Burrow := { amphipods := [(.room 2 1, .A), (.hallway 1, .B)], room_depth := 2 }

/-- C5 counterexample: the `B` in the corridor is offered `Room(2,2)` as a
destination although its target room contains a foreign token (`A`, whose
target room is 1) at depth 1: the destination-spot scan stops at the deepest
empty cell and never inspects shallower cells, so a foreign token above the
chosen slot does not suppress the move. -/
theorem claim_C5_counterexample :
    (6, Location.room 2 2) ∈ cexC5.movements (.hallway 1) .B ∧
      cexC5.get (.room 2 1) = some .A ∧ Amphipod.roomNo .A ≠ 2 ∧
      Amphipod.roomNo .B = 2 := by decide

/-- C5 (amended): every generated destination is either (a) a cell of the
moving token's own target room, at the deepest currently empty depth, with
every deeper cell of that room occupied by tokens of the same type (tokens at
shallower depths are not examined, so a foreign token above the slot does not
suppress the move), or (b) an unoccupied, non-forbidden corridor cell, and
corridor destinations arise only when the source is a Room cell. -/
theorem claim_C5_amended (b : Burrow) (loc : Location) (amph : Amphipod) (d : Int)
    (dest : Location) (h : (d, dest) ∈ b.movements loc amph) :
    (∃ sd, dest = .room amph.roomNo sd ∧ 1 ≤ sd ∧ sd ≤ b.room_depth ∧
      b.get dest = none ∧
      ∀ x, sd < x → x ≤ b.room_depth → b.get (.room amph.roomNo x) = some amph) ∨
    (∃ hh rs ds, loc = .room rs ds ∧ dest = .hallway hh ∧ b.get dest = none ∧
      hh ∉ FORBIDDEN) := by
  rcases movements_mem_cases h with ⟨hspot, _, _, _⟩ | hmem
  · rcases findSpot_spec hspot with ⟨sd, hsp, h1, h2, h3, h4⟩
    exact .inl ⟨sd, hsp, h1, h2, h3, h4⟩
  · rcases hallwayMoves_mem hmem with ⟨rs, ds, hh, hloc, hdest, hf, hget, _, _, _⟩
    refine .inr ⟨hh, rs, ds, hloc, hdest, ?_, hf⟩
    rw [hdest]
    exact hget

theorem claim_C5_amended_witness :
    (∃ sd, Location.room 2 2 = .room (Amphipod.roomNo .B) sd ∧ 1 ≤ sd ∧
      sd ≤ cexC5.room_depth ∧ cexC5.get (.room 2 2) = none ∧
      ∀ x, sd < x → x ≤ cexC5.room_depth →
        cexC5.get (.room (Amphipod.roomNo .B) x) = some .B) ∨
    (∃ hh rs ds, Location.hallway 1 = .room rs ds ∧ Location.room 2 2 = .hallway hh ∧
      cexC5.get (.room 2 2) = none ∧ hh ∉ FORBIDDEN) :=
  claim_C5_amended cexC5 (.hallway 1) .B 6 (.room 2 2) (by decide)

theorem iabs_pos_of_ne {x y : Int} (h : x ≠ y) : 1 ≤ iabs (x - y) := by
  rw [iabs_def]
  split <;> omega

theorem iabs_nonneg (x : Int) : 0 ≤ iabs x := by
  rw [iabs_def]
  split <;> omega

/-- C6 (confirmed): every generated move `(d, dest)` for a token at a valid
source cell satisfies `d = Location::distance(source, dest)`; the destination
is never the source cell, the distance is strictly positive, and the cost
charged by `Solver::step` for it, `d * energy`, equals `distance * energy`. -/
theorem claim_C6 (b : Burrow) (loc : Location) (amph : Amphipod) (d : Int)
    (dest : Location) (hloc : validLoc b.room_depth loc = true)
    (h : (d, dest) ∈ b.movements loc amph) :
    d = Location.distance loc dest ∧ dest ≠ loc ∧ 1 ≤ d ∧
      d * amph.energy = Location.distance loc dest * amph.energy := by
  have hd1 : 0 ≤ loc.toHallway.2 := by
    cases loc with
    | room r dd =>
      simp only [validLoc, Bool.and_eq_true, decide_eq_true_eq] at hloc
      show 0 ≤ dd
      omega
    | hallway hh => exact le_refl 0
  rcases movements_mem_cases h with ⟨hspot, hne, hd, _⟩ | hmem
  · rcases findSpot_spec hspot with ⟨sd, hsp, hsd1, _, _, _⟩
    have hdist : Location.distance loc dest =
        iabs (loc.toHallway.1 - dest.toHallway.1) + loc.toHallway.2 + dest.toHallway.2 :=
      rfl
    have hdep : dest.toHallway.2 = sd := by
      rw [hsp]
      rfl
    have hiabs : 1 ≤ iabs (loc.toHallway.1 - dest.toHallway.1) := iabs_pos_of_ne hne
    have heqd : d = Location.distance loc dest := by
      rw [hdist]
      omega
    refine ⟨heqd, ?_, by omega, by rw [heqd]⟩
    intro heq
    rw [heq] at hne
    exact hne rfl
  · rcases hallwayMoves_mem hmem with ⟨rs, ds, hh, hloc2, hdest, _, _, hbnd, hdd, _⟩
    have hne : loc.toHallway.1 ≠ hh := by omega
    have hdist : Location.distance loc dest =
        iabs (loc.toHallway.1 - dest.toHallway.1) + loc.toHallway.2 + dest.toHallway.2 :=
      rfl
    have hdep : dest.toHallway.2 = 0 := by
      rw [hdest]
      rfl
    have hanch : dest.toHallway.1 = hh := by
      rw [hdest]
      rfl
    have hiabs : 1 ≤ iabs (loc.toHallway.1 - hh) := iabs_pos_of_ne hne
    have heqd : d = Location.distance loc dest := by
      rw [hdist, hanch, hdep]
      omega
    refine ⟨heqd, ?_, by omega, by rw [heqd]⟩
    rw [hloc2, hdest]
    simp

def wC6 : Burrow := { amphipods := [(.hallway 6, .C)], room_depth := 2 }

theorem claim_C6_witness :
    (3 : Int) = Location.distance (.hallway 6) (.room 3 2) ∧
      (Location.room 3 2 : Location) ≠ .hallway 6 ∧ (1 : Int) ≤ 3 ∧
      (3 : Int) * Amphipod.energy .C =
        Location.distance (.hallway 6) (.room 3 2) * Amphipod.energy .C :=
  claim_C6 wC6 (.hallway 6) .C 3 (.room 3 2) (by decide) (by decide)

/-- C7 (confirmed): every successor configuration produced by
`Burrow::possibilities` has exactly as many occupied cells as its parent, and
the relocated token lands on a cell that was unoccupied in the parent. -/
theorem claim_C7 (b : Burrow) (t : Amphipod × Int × Burrow) (h : t ∈ b.possibilities) :
    t.2.2.amphipods.length = b.amphipods.length ∧
      ∃ loc dest, (loc, t.1) ∈ b.amphipods ∧ (t.2.1, dest) ∈ b.movements loc t.1 ∧
        b.get dest = none ∧
        t.2.2.amphipods = insertKey dest t.1 (eraseKey loc b.amphipods) := by
  rcases t with ⟨a, d, b2⟩
  rcases possibilities_spec h with ⟨h1, _, loc, dest, h3, h4, h5, h6⟩
  exact ⟨h1, loc, dest, h3, h4, h5, h6⟩

theorem claim_C7_witness :
    ((⟨[(.room 3 2, .C)], 2⟩ : Burrow).amphipods.length = wC6.amphipods.length) ∧
      ∃ loc dest, (loc, Amphipod.C) ∈ wC6.amphipods ∧
        ((3 : Int), dest) ∈ wC6.movements loc .C ∧ wC6.get dest = none ∧
        (⟨[(.room 3 2, .C)], 2⟩ : Burrow).amphipods =
          insertKey dest .C (eraseKey loc wC6.amphipods) :=
  claim_C7 wC6 (.C, 3, ⟨[(.room 3 2, .C)], 2⟩) (by decide)

def strC8bad : String :=
  "#############\n#...........#\n###A#A#A#A###\n  #A#A#A#A#\n  #########"

def cexC8 : Burrow :=
  { amphipods :=
      [(.room 1 1, .A), (.room 1 2, .A), (.room 2 1, .A), (.room 2 2, .A),
       (.room 3 1, .A), (.room 3 2, .A), (.room 4 1, .A), (.room 4 2, .A)],
    room_depth := 2 }

/-- C8 counterexample: a board with eight `A` tokens and no `B`, `C` or `D` —
wrong token counts per room — is accepted by the parser (`Burrow::from_str`
returns `Ok`), and the Search Engine then searches from it (`Solver::step`
proceeds); no construction-time failure occurs. -/
theorem claim_C8_counterexample :
    onlyBurrow strC8bad = some cexC8 ∧ countTok cexC8 .A = 8 ∧
      countTok cexC8 .B = 0 ∧ (stepSim (Solver.new cexC8)).1 = true := by decide

def strC8shape : String :=
  "#############\n#..........#\n###A#A#A#A###\n  #########"

/-- C8 (amended): only structurally malformed input (a grid whose shape does
not match the burrow picture) is rejected at construction time
(`Burrow::from_str` returns `Err`); token counts are not validated, so a
configuration with wrong counts parses successfully and is handed to the
Search Engine. -/
theorem claim_C8_amended :
    onlyBurrow strC8shape = none ∧ onlyBurrow strC8bad = some cexC8 ∧
      countTok cexC8 .A = 8 ∧ cexC8.room_depth = 2 ∧
      (stepSim (Solver.new cexC8)).1 = true := by decide

/-- C9 (confirmed): on a valid initial configuration the search loop
terminates — some finite fuel makes `solveFuel` return a result, because the
seen set admits each configuration at most once and the state space is finite
— and whenever the frontier is empty the loop ends immediately with `None`
(the no-solution outcome, not a crash). -/
theorem claim_C9 (init : Burrow) (hrd : 0 ≤ init.room_depth) (hv : ValidB init) :
    (∃ fuel : Nat, (solveFuel fuel (Solver.new init)).isSome) ∧
      (∀ s : SolverSt, s.queue = [] → ∀ fuel : Nat, solveFuel (fuel + 1) s = some none) := by
  constructor
  · refine ⟨2 * stateBound init + 2, ?_⟩
    apply solveFuel_runs hrd (2 * stateBound init + 1) (Solver.new init) (solverInv_new hv)
    show 2 * (stateBound init - 1) + 1 ≤ 2 * stateBound init + 1
    omega
  · intro s hq fuel
    have hss : stepSim s = (false, s) := by
      unfold stepSim
      rw [hq]
      rfl
    unfold solveFuel
    rw [hss]
    dsimp only
    rw [hq]
    rfl

theorem claim_C9_witness :
    (∃ fuel : Nat, (solveFuel fuel (Solver.new w1Burrow)).isSome) ∧
      solveFuel 1 ⟨[], []⟩ = some none :=
  ⟨(claim_C9 w1Burrow (by decide) (by decide)).1,
   (claim_C9 w1Burrow (by decide) (by decide)).2 ⟨[], []⟩ rfl 0⟩

/-- C10 (confirmed): on a valid configuration the heuristic `min_cost` is zero
exactly when every occupied cell is snug (each non-settled token contributes
at least `1`), and the solver's completion test `energy == expected_cost`
(with `expected_cost = energy + min_cost` as the solver maintains) holds
exactly on fully solved configurations. -/
theorem claim_C10 (b : Burrow) (hv : ValidB b) (energy : Int) :
    (b.minCost = 0 ↔ ∀ e ∈ b.amphipods, b.snug e.1 = true) ∧
      (Possibility.complete ⟨energy, energy + b.minCost, b⟩ = true ↔
        ∀ e ∈ b.amphipods, b.snug e.1 = true) := by
  have h1 := minCost_eq_zero_iff hv
  refine ⟨h1, ?_⟩
  show (energy == energy + b.minCost) = true ↔ _
  rw [beq_iff_eq]
  constructor
  · intro h
    apply h1.mp
    omega
  · intro h
    have h0 := h1.mpr h
    omega

theorem claim_C10_witness :
    w1Burrow.minCost = 0 ∧
      Possibility.complete ⟨5, 5 + w1Burrow.minCost, w1Burrow⟩ = true :=
  ⟨(claim_C10 w1Burrow (by decide) 5).1.mpr (by decide),
   (claim_C10 w1Burrow (by decide) 5).2.mpr (by decide)⟩
